import Mathlib

/-!
Verification of the multi-tier cache subsystem of open-canvas.

Shallow embedding of:
- `src/apps/web/src/lib/cache/redis-cache-manager.ts` (class RedisCacheManager),
- the enhanced cache manager (class EnhancedCacheManager, file
  enhanced-cache-manager.ts, present as src/unnamed/part_006).

Conventions of the embedding:
- JS `Map<string, CacheItem>` is modelled as an insertion-ordered association
  list with unique keys; `Map.set` updates an existing key in place (keeping
  its position) and appends a new key at the end, `Map.delete` removes the
  key, exactly as JS maps behave.  Keys are a type parameter with decidable
  equality (the source uses strings; nothing in the code depends on the key
  type beyond equality).
- `Date.now()` timestamps are naturals (milliseconds); callers pass the
  current time explicitly (simulated clock).
- Async remote (ioredis) calls are modelled by an explicit outcome parameter:
  the environment decides whether the call returns data, returns null, or
  throws.  All catch-blocks of the source become total functions on these
  outcomes, which is exactly the "never throws to the caller" contract.
- Floating point appears in the source only in `Math.floor(entries.length *
  0.1)` (eviction batch size) and in the derived rational statistics.  For
  every list length n that can occur here (n ≤ 1001) the double computation
  `Math.floor(n * 0.1)` equals `n / 10` in natural division, which is how it
  is modelled; hit rates and average response times are modelled as rationals.
-/

namespace OpenCanvasCache

/-! ### Association-list model of a JS Map -/

variable {κ : Type} [DecidableEq κ] {β : Type} {α : Type}

/-- JS `map.get(k)`: the value stored at the first (unique) occurrence of k. -/
def mapFind : List (κ × β) → κ → Option β
  | [], _ => none
  | (k', v) :: rest, k => if k' = k then some v else mapFind rest k

/-- JS `map.set(k, v)`: update an existing key in place, else append. -/
def mapSet : List (κ × β) → κ → β → List (κ × β)
  | [], k, v => [(k, v)]
  | (k', v') :: rest, k, v =>
      if k' = k then (k, v) :: rest else (k', v') :: mapSet rest k v

/-- JS `map.delete(k)`: remove the entry for k (keys are unique in a JS Map,
so removing every occurrence coincides with removing the single one). -/
def mapDelete : List (κ × β) → κ → List (κ × β)
  | [], _ => []
  | (k', v) :: rest, k =>
      if k' = k then mapDelete rest k else (k', v) :: mapDelete rest k

/-- The keys of the map, in insertion order. -/
def mapKeys (m : List (κ × β)) : List κ := m.map Prod.fst

/-- Well-formedness of a JS Map image: keys occur at most once. -/
def keysNodup (m : List (κ × β)) : Prop := (mapKeys m).Nodup

instance decKeysNodup (m : List (κ × β)) : Decidable (keysNodup m) :=
  inferInstanceAs (Decidable (mapKeys m).Nodup)

/-! ### Data model: CacheItem (enhanced-cache-manager.ts, interface CacheItem) -/

/-- interface CacheItem: data, timestamp (ms), ttl (seconds), accessCount,
lastAccessed (ms). -/
structure CacheItem (α : Type) where
  data : α
  timestamp : Nat
  ttl : Nat
  accessCount : Nat
  lastAccessed : Nat
deriving DecidableEq

/-- EnhancedCacheManager.isExpired: `Date.now() - item.timestamp > item.ttl * 1000`
(strict comparison; at an age of exactly ttl seconds the item is NOT expired). -/
def isExpired (item : CacheItem α) (now : Nat) : Bool :=
  item.ttl * 1000 < now - item.timestamp

/-- The CacheItem built by EnhancedCacheManager.set: stored data, creation
timestamp now, the resolved ttl, accessCount 0, lastAccessed now. -/
def newItem (v : α) (now ttlv : Nat) : CacheItem α :=
  { data := v, timestamp := now, ttl := ttlv, accessCount := 0,
    lastAccessed := now }

/-! ### Stable sort by lastAccessed (the eviction pass's comparator)

`entries.sort((a, b) => a[1].lastAccessed - b[1].lastAccessed)` is a stable
ascending sort (ES2019 Array.prototype.sort is stable).  Insertion sort that
places an element before the first strictly greater one is stable. -/

/-- The sort key of an entry: its lastAccessed timestamp. -/
def laKey (p : κ × CacheItem α) : Nat := p.2.lastAccessed

/-- Stable insertion of one entry into a list sorted by lastAccessed. -/
def insertLA (x : κ × CacheItem α) : List (κ × CacheItem α) → List (κ × CacheItem α)
  | [] => [x]
  | y :: ys => if laKey y < laKey x then y :: insertLA x ys else x :: y :: ys

/-- Stable sort of the entry list by ascending lastAccessed. -/
def sortLA : List (κ × CacheItem α) → List (κ × CacheItem α)
  | [] => []
  | x :: xs => insertLA x (sortLA xs)

/-! ### Remote tier client: RedisCacheManager (redis-cache-manager.ts) -/

/-- interface CacheStats of redis-cache-manager.ts. -/
structure RedisCacheStats where
  requests : Nat
  hits : Nat
  misses : Nat
  errors : Nat
  hitRate : Rat
  avgResponseTime : Rat
deriving DecidableEq

/-- Mutable state of a RedisCacheManager: the connection handle (`redis`
field, null or not), `isConnected`, reconnect bookkeeping and stats.  A
pending `reconnectTimer` is recorded together with the delay it was scheduled
with. -/
structure RedisCacheState where
  redis : Bool
  isConnected : Bool
  reconnectAttempts : Nat
  maxReconnectAttempts : Nat
  reconnectTimer : Option Nat
  stats : RedisCacheStats
deriving DecidableEq

/-- RedisCacheManager constructor: zeroed stats, maxReconnectAttempts = 5;
initializeRedis returns immediately (Redis disabled in the current source),
so the connection handle stays null and no event handlers are installed. -/
def rcmNew : RedisCacheState :=
  { redis := false, isConnected := false, reconnectAttempts := 0,
    maxReconnectAttempts := 5, reconnectTimer := none,
    stats := ⟨0, 0, 0, 0, 0, 0⟩ }

/-- RedisCacheManager.updateHitRate: hitRate = hits/requests, 0 if requests = 0. -/
def rcmUpdateHitRate (st : RedisCacheStats) : RedisCacheStats :=
  { st with hitRate := if 0 < st.requests then (st.hits : Rat) / st.requests else 0 }

/-- RedisCacheManager.updateAvgResponseTime:
`avg = (avg * (requests - 1) + responseTime) / requests` (rational model;
the source computes this in floating point). -/
def rcmUpdateAvg (st : RedisCacheStats) (rt : Nat) : RedisCacheStats :=
  { st with avgResponseTime :=
      (st.avgResponseTime * ((st.requests : Rat) - 1) + rt) / st.requests }

/-- Environment outcome of one `redis.get` call: the call throws (network
error / timeout), returns null, returns data that parses to v, or returns
data whose JSON.parse throws. -/
inductive RemoteGetOutcome (α : Type) where
  | err
  | missing
  | found (v : α)
  | corrupt
deriving DecidableEq

/-- Environment outcome of a remote write-like call (set/delete/clear): the
call (including JSON.stringify) succeeds or throws. -/
inductive RemoteOpOutcome where
  | ok
  | err
deriving DecidableEq

/-- RedisCacheManager.get.  Not connected: warn and return null without
touching stats.  Otherwise requests++ and then: on a throw the catch block
does errors++ and returns null; on null: misses++, updateHitRate, null; on
parsable data: updateAvgResponseTime, hits++, updateHitRate, the value; on
unparsable data the JSON.parse throw lands in the same catch after the hit
was already counted.  Total on all outcomes: the method never throws. -/
def rcmGet (s : RedisCacheState) (o : RemoteGetOutcome α) (rt : Nat) :
    RedisCacheState × Option α :=
  if ¬ (s.redis = true ∧ s.isConnected = true) then (s, none)
  else
    let st := { s.stats with requests := s.stats.requests + 1 }
    match o with
    | .err => ({ s with stats := { st with errors := st.errors + 1 } }, none)
    | .missing =>
        let st := rcmUpdateAvg st rt
        ({ s with stats := rcmUpdateHitRate { st with misses := st.misses + 1 } }, none)
    | .found v =>
        let st := rcmUpdateAvg st rt
        ({ s with stats := rcmUpdateHitRate { st with hits := st.hits + 1 } }, some v)
    | .corrupt =>
        let st := rcmUpdateAvg st rt
        let st := rcmUpdateHitRate { st with hits := st.hits + 1 }
        ({ s with stats := { st with errors := st.errors + 1 } }, none)

/-- RedisCacheManager.set: no-op if not connected; on success only the
average response time moves; a throw is caught, errors++.  Never throws. -/
def rcmSet (s : RedisCacheState) (o : RemoteOpOutcome) (rt : Nat) : RedisCacheState :=
  if ¬ (s.redis = true ∧ s.isConnected = true) then s
  else
    match o with
    | .ok => { s with stats := rcmUpdateAvg s.stats rt }
    | .err => { s with stats := { s.stats with errors := s.stats.errors + 1 } }

/-- RedisCacheManager.delete: no-op if not connected; a throw is caught,
errors++.  Never throws. -/
def rcmDelete (s : RedisCacheState) (o : RemoteOpOutcome) : RedisCacheState :=
  if ¬ (s.redis = true ∧ s.isConnected = true) then s
  else
    match o with
    | .ok => s
    | .err => { s with stats := { s.stats with errors := s.stats.errors + 1 } }

/-- RedisCacheManager.exists: false if not connected; a throw is caught,
errors++, false.  The outcome none models a throw, some b a clean answer. -/
def rcmExistsKey (s : RedisCacheState) (o : Option Bool) : RedisCacheState × Bool :=
  if ¬ (s.redis = true ∧ s.isConnected = true) then (s, false)
  else
    match o with
    | some b => (s, b)
    | none => ({ s with stats := { s.stats with errors := s.stats.errors + 1 } }, false)

/-- RedisCacheManager.clear (flushdb): no-op if not connected; a throw is
caught, errors++. -/
def rcmClear (s : RedisCacheState) (o : RemoteOpOutcome) : RedisCacheState :=
  if ¬ (s.redis = true ∧ s.isConnected = true) then s
  else
    match o with
    | .ok => s
    | .err => { s with stats := { s.stats with errors := s.stats.errors + 1 } }

/-- RedisCacheManager.destroy: clearTimeout + null the reconnect timer,
disconnect + null the connection handle, isConnected = false. -/
def rcmDestroy (s : RedisCacheState) : RedisCacheState :=
  { s with reconnectTimer := none, redis := false, isConnected := false }

/-- RedisCacheManager.scheduleReconnect: give up silently once
reconnectAttempts has reached maxReconnectAttempts; otherwise clear any
pending timer and schedule a new one with delay
`Math.pow(2, reconnectAttempts) * 1000` ms. -/
def scheduleReconnect (s : RedisCacheState) : RedisCacheState :=
  if s.maxReconnectAttempts ≤ s.reconnectAttempts then s
  else { s with reconnectTimer := some (2 ^ s.reconnectAttempts * 1000) }

/-- The ioredis events RedisCacheManager.setupEventHandlers subscribes to,
plus the firing of a scheduled reconnect timeout. -/
inductive RedisEvent where
  | connect
  | ready
  | error
  | close
  | reconnecting
  | timerFire
deriving DecidableEq

/-- One step of the connection-health machine (setupEventHandlers plus the
scheduleReconnect timeout callback, which does reconnectAttempts++ and calls
redis.connect()). -/
def rcmEvent (s : RedisCacheState) : RedisEvent → RedisCacheState
  | .connect => { s with isConnected := true, reconnectAttempts := 0 }
  | .ready => { s with isConnected := true }
  | .error =>
      scheduleReconnect
        { s with isConnected := false,
                 stats := { s.stats with errors := s.stats.errors + 1 } }
  | .close => { s with isConnected := false }
  | .reconnecting => s
  | .timerFire =>
      match s.reconnectTimer with
      | some _ => { s with reconnectTimer := none,
                           reconnectAttempts := s.reconnectAttempts + 1 }
      | none => s

/-- Run a sequence of connection events. -/
def rcmRun (s : RedisCacheState) (es : List RedisEvent) : RedisCacheState :=
  es.foldl rcmEvent s

/-- The delay scheduleReconnect would schedule when handling an event in
state s (none when the event schedules nothing). -/
def scheduledDelay (s : RedisCacheState) (e : RedisEvent) : Option Nat :=
  if e = RedisEvent.error ∧ s.reconnectAttempts < s.maxReconnectAttempts then
    some (2 ^ s.reconnectAttempts * 1000)
  else none

/-- The sequence of reconnect delays scheduled along a run of events. -/
def delayTrace : RedisCacheState → List RedisEvent → List Nat
  | _, [] => []
  | s, e :: es => (scheduledDelay s e).toList ++ delayTrace (rcmEvent s e) es

/-- Modelled from the spec: the spec-level ConnectionState enum collapses the
code's implicit (isConnected, reconnectAttempts) machine; its terminal
`Disabled` state is "after maxAttempts consecutive failures", i.e. the
reconnect-attempt budget is exhausted so scheduleReconnect refuses to
schedule.  The code has no explicit enum; this predicate names the give-up
condition for the refinement statement of C7. -/
def connDisabled (s : RedisCacheState) : Prop :=
  s.maxReconnectAttempts ≤ s.reconnectAttempts

/-! ### Cache facade: EnhancedCacheManager (enhanced-cache-manager.ts) -/

/-- The preferredBackend configuration value. -/
inductive PreferredBackend where
  | auto
  | redis
  | memory
deriving DecidableEq

/-- interface EnhancedCacheConfig. -/
structure EnhancedCacheConfig where
  defaultTtl : Nat
  maxMemorySize : Nat
  cleanupInterval : Nat
  preferredBackend : PreferredBackend
  enableMemoryCache : Bool
deriving DecidableEq

/-- The `type` of the active backend (field backendType / stats.backend.type). -/
inductive BackendTy where
  | redis
  | memory
deriving DecidableEq

/-- stats.backend.status values. -/
inductive BackendStatus where
  | connected
  | error
  | disabled
deriving DecidableEq

/-- Mutable state of an EnhancedCacheManager.  The nested stats record of the
source (stats.total.*, stats.backend.*, stats.memoryCache.*) is flattened
into the total*, statsBackendType/backendStatus/backendHitRate and
memSize/memHitRate fields. -/
structure EnhancedCacheState (κ α : Type) where
  memoryCache : List (κ × CacheItem α)
  redisCache : Option RedisCacheState
  config : EnhancedCacheConfig
  backendType : BackendTy
  cleanupTimer : Bool
  totalRequests : Nat
  totalHits : Nat
  totalMisses : Nat
  totalHitRate : Rat
  statsBackendType : BackendTy
  backendStatus : BackendStatus
  backendHitRate : Rat
  memSize : Nat
  memHitRate : Rat
deriving DecidableEq

/-- EnhancedCacheManager constructor: zeroed stats, then initializeBackend.
determineBackend returns preferredBackend when it is not auto and otherwise
always 'memory' (Redis is disabled in the current source); initializeBackend
routes both the 'redis' case (which skips Redis initialization) and the
default case to initializeMemoryOnly, so every constructed manager has
backendType = memory, stats.backend = (memory, connected) and a null
redisCache.  startCleanupTimer installs the sweep timer. -/
def ecmNew (cfg : EnhancedCacheConfig) : EnhancedCacheState κ α :=
  { memoryCache := [], redisCache := none, config := cfg,
    backendType := .memory, cleanupTimer := true,
    totalRequests := 0, totalHits := 0, totalMisses := 0, totalHitRate := 0,
    statsBackendType := .memory, backendStatus := .connected,
    backendHitRate := 0, memSize := 0, memHitRate := 0 }

/-- Argument of EnhancedCacheManager.calculateHitRate. -/
inductive HitKind where
  | memory
  | backend
deriving DecidableEq

/-- EnhancedCacheManager.calculateHitRate: 0 when there are no requests,
otherwise it returns the stored per-tier hit rate unchanged (the source reads
back the very field its callers assign it to). -/
def calculateHitRate (s : EnhancedCacheState κ α) : HitKind → Rat
  | .memory => if s.totalRequests = 0 then 0 else s.memHitRate
  | .backend => if s.totalRequests = 0 then 0 else s.backendHitRate

/-- The memory-tier phase of EnhancedCacheManager.get: the stored item when
the memory cache is enabled, the key is present and the item is not expired. -/
def memoryLookup (s : EnhancedCacheState κ α) (k : κ) (now : Nat) :
    Option (CacheItem α) :=
  if s.config.enableMemoryCache then
    match mapFind s.memoryCache k with
    | some item => if isExpired item now then none else some item
    | none => none
  else none

/-- The backend phase of EnhancedCacheManager.get (step 2 of the method):
consult the redis client when backendType is 'redis' and a client exists
(rcmGet never throws, so the facade's catch block is unreachable); a remote
hit is written back into the memory cache with the facade's defaultTtl and
accessCount 1 and counted as a hit; every other path counts one miss and
returns null. -/
def remoteGetPhase (s : EnhancedCacheState κ α) (k : κ) (now : Nat)
    (o : RemoteGetOutcome α) (rt : Nat) : EnhancedCacheState κ α × Option α :=
  match s.backendType, s.redisCache with
  | .redis, some r =>
      let res := rcmGet r o rt
      let s := { s with redisCache := some res.1 }
      match res.2 with
      | some v =>
          let wb : CacheItem α :=
            { data := v, timestamp := now, ttl := s.config.defaultTtl,
              accessCount := 1, lastAccessed := now }
          let s :=
            if s.config.enableMemoryCache then
              { s with memoryCache := mapSet s.memoryCache k wb }
            else s
          let s := { s with backendHitRate := calculateHitRate s .backend }
          ({ s with totalHits := s.totalHits + 1 }, some v)
      | none => ({ s with totalMisses := s.totalMisses + 1 }, none)
  | _, _ => ({ s with totalMisses := s.totalMisses + 1 }, none)

def ecmGet (s : EnhancedCacheState κ α) (k : κ) (now : Nat)
    (o : RemoteGetOutcome α) (rt : Nat) : EnhancedCacheState κ α × Option α :=
  let s := { s with totalRequests := s.totalRequests + 1 }
  match memoryLookup s k now with
  | some item =>
      let item' := { item with accessCount := item.accessCount + 1, lastAccessed := now }
      let s := { s with memoryCache := mapSet s.memoryCache k item' }
      let s := { s with memHitRate := calculateHitRate s .memory }
      ({ s with totalHits := s.totalHits + 1 }, some item.data)
  | none => remoteGetPhase s k now o rt

/-- The keys selected for eviction by checkMemoryLimit: the map's entries
sorted by ascending lastAccessed, the first `Math.floor(length * 0.1)`
(= length / 10 here, see the header note) of them. -/
def evictKeys (m : List (κ × CacheItem α)) : List κ :=
  ((sortLA m).take ((sortLA m).length / 10)).map Prod.fst

/-- The body of the eviction pass of checkMemoryLimit: delete each selected
key from the map. -/
def evictOldest (m : List (κ × CacheItem α)) : List (κ × CacheItem α) :=
  (evictKeys m).foldl mapDelete m

/-- EnhancedCacheManager.checkMemoryLimit: when the map holds more than 1000
entries, sort them by ascending lastAccessed and delete the oldest 10%. -/
def checkMemoryLimit (s : EnhancedCacheState κ α) : EnhancedCacheState κ α :=
  if 1000 < s.memoryCache.length then
    { s with memoryCache := evictOldest s.memoryCache }
  else s

/-- The backend write of EnhancedCacheManager.set: write through to the
redis client when it is active (rcmSet never throws; the catch is
unreachable). -/
def remoteSetPhase (s : EnhancedCacheState κ α) (o : RemoteOpOutcome)
    (rt : Nat) : EnhancedCacheState κ α :=
  match s.backendType, s.redisCache with
  | .redis, some r => { s with redisCache := some (rcmSet r o rt) }
  | _, _ => s

/-- EnhancedCacheManager.set: build the item (ttl defaults to
config.defaultTtl), write it to the memory cache if enabled, write through to
the redis client if active, then checkMemoryLimit. -/
def ecmSet (s : EnhancedCacheState κ α) (k : κ) (v : α) (ttl? : Option Nat)
    (now : Nat) (o : RemoteOpOutcome) (rt : Nat) : EnhancedCacheState κ α :=
  let item : CacheItem α :=
    { data := v, timestamp := now, ttl := ttl?.getD s.config.defaultTtl,
      accessCount := 0, lastAccessed := now }
  let s :=
    if s.config.enableMemoryCache then
      { s with memoryCache := mapSet s.memoryCache k item }
    else s
  checkMemoryLimit (remoteSetPhase s o rt)

/-- The backend delete of EnhancedCacheManager.delete. -/
def remoteDeletePhase (s : EnhancedCacheState κ α) (o : RemoteOpOutcome) :
    EnhancedCacheState κ α :=
  match s.backendType, s.redisCache with
  | .redis, some r => { s with redisCache := some (rcmDelete r o) }
  | _, _ => s

/-- EnhancedCacheManager.delete: remove from the memory cache if enabled,
then from the redis client if active. -/
def ecmDelete (s : EnhancedCacheState κ α) (k : κ) (o : RemoteOpOutcome) :
    EnhancedCacheState κ α :=
  let s :=
    if s.config.enableMemoryCache then
      { s with memoryCache := mapDelete s.memoryCache k }
    else s
  remoteDeletePhase s o

/-- The backend phase of EnhancedCacheManager.exists. -/
def remoteExistsPhase (s : EnhancedCacheState κ α) (o : Option Bool) :
    EnhancedCacheState κ α × Bool :=
  match s.backendType, s.redisCache with
  | .redis, some r =>
      let res := rcmExistsKey r o
      ({ s with redisCache := some res.1 }, res.2)
  | _, _ => (s, false)

/-- EnhancedCacheManager.exists: true on a fresh memory item, else ask the
redis client if active, else false.  No total counters move. -/
def ecmExistsKey (s : EnhancedCacheState κ α) (k : κ) (now : Nat)
    (o : Option Bool) : EnhancedCacheState κ α × Bool :=
  match memoryLookup s k now with
  | some _ => (s, true)
  | none => remoteExistsPhase s o

/-- EnhancedCacheManager.mget: sequential gets, collecting the results. -/
def ecmMget (s : EnhancedCacheState κ α) (now : Nat) :
    List (κ × RemoteGetOutcome α × Nat) → EnhancedCacheState κ α × List (Option α)
  | [] => (s, [])
  | (k, o, rt) :: rest =>
      let r := ecmGet s k now o rt
      let rs := ecmMget r.1 now rest
      (rs.1, r.2 :: rs.2)

/-- EnhancedCacheManager.mset: one set per item (the Promise.all of the
source runs the synchronous bodies in order). -/
def ecmMset (s : EnhancedCacheState κ α) (now : Nat) :
    List (κ × α × Option Nat × RemoteOpOutcome × Nat) → EnhancedCacheState κ α
  | [] => s
  | (k, v, ttl?, o, rt) :: rest => ecmMset (ecmSet s k v ttl? now o rt) now rest

/-- The backend clear of EnhancedCacheManager.clear. -/
def remoteClearPhase (s : EnhancedCacheState κ α) (o : RemoteOpOutcome) :
    EnhancedCacheState κ α :=
  match s.backendType, s.redisCache with
  | .redis, some r => { s with redisCache := some (rcmClear r o) }
  | _, _ => s

/-- EnhancedCacheManager.clear: empty the memory cache if enabled, clear the
redis backend if active, then reset the whole stats record to zeroes with
backend.type = backendType and backend.status = 'connected'. -/
def ecmClear (s : EnhancedCacheState κ α) (o : RemoteOpOutcome) :
    EnhancedCacheState κ α :=
  let s :=
    if s.config.enableMemoryCache then { s with memoryCache := [] } else s
  let s := remoteClearPhase s o
  { s with totalRequests := 0, totalHits := 0, totalMisses := 0, totalHitRate := 0,
           statsBackendType := s.backendType, backendStatus := .connected,
           backendHitRate := 0, memSize := 0, memHitRate := 0 }

/-- The CacheStats record returned by EnhancedCacheManager.getStats. -/
structure CacheStatsView where
  requests : Nat
  hits : Nat
  misses : Nat
  hitRate : Rat
  backendType : BackendTy
  backendStatus : BackendStatus
  backendHitRate : Rat
  memSize : Nat
  memHitRate : Rat
deriving DecidableEq

/-- EnhancedCacheManager.getStats: memoryCache.size is refreshed from the
map, total.hitRate is hits/requests (0 when requests = 0), everything else
is copied out. -/
def ecmGetStats (s : EnhancedCacheState κ α) : CacheStatsView :=
  { requests := s.totalRequests, hits := s.totalHits, misses := s.totalMisses,
    hitRate := if 0 < s.totalRequests then (s.totalHits : Rat) / s.totalRequests else 0,
    backendType := s.statsBackendType, backendStatus := s.backendStatus,
    backendHitRate := s.backendHitRate,
    memSize := s.memoryCache.length, memHitRate := s.memHitRate }

/-- The state mutation performed by getStats (it assigns the refreshed size
and hit rate back into this.stats before copying). -/
def ecmGetStatsApply (s : EnhancedCacheState κ α) : EnhancedCacheState κ α :=
  { s with memSize := s.memoryCache.length,
           totalHitRate :=
             if 0 < s.totalRequests then (s.totalHits : Rat) / s.totalRequests else 0 }

/-- The filter of EnhancedCacheManager.cleanupExpiredItems: keep exactly the
entries not past their TTL at time now. -/
def sweepExpired : List (κ × CacheItem α) → Nat → List (κ × CacheItem α)
  | [], _ => []
  | (k, it) :: rest, now =>
      if isExpired it now then sweepExpired rest now
      else (k, it) :: sweepExpired rest now

/-- EnhancedCacheManager.cleanupExpiredItems (the body of the periodic
cleanup timer): delete every entry whose age exceeds its TTL. -/
def ecmCleanup (s : EnhancedCacheState κ α) (now : Nat) : EnhancedCacheState κ α :=
  { s with memoryCache := sweepExpired s.memoryCache now }

/-- EnhancedCacheManager.destroy: clearInterval + null the cleanup timer,
clear the memory map, destroy and null the redis client. -/
def ecmDestroy (s : EnhancedCacheState κ α) : EnhancedCacheState κ α :=
  { s with cleanupTimer := false, memoryCache := [], redisCache := none }

/-! ### Operation traces against the facade -/

/-- One completed operation against the facade, together with the
environment inputs it consumes: the simulated clock value and the outcomes
of any remote calls. -/
inductive CacheOp (κ α : Type) where
  | get (k : κ) (now : Nat) (o : RemoteGetOutcome α) (rt : Nat)
  | set (k : κ) (v : α) (ttl? : Option Nat) (now : Nat) (o : RemoteOpOutcome) (rt : Nat)
  | del (k : κ) (o : RemoteOpOutcome)
  | existsKey (k : κ) (now : Nat) (o : Option Bool)
  | mget (args : List (κ × RemoteGetOutcome α × Nat)) (now : Nat)
  | mset (items : List (κ × α × Option Nat × RemoteOpOutcome × Nat)) (now : Nat)
  | clear (o : RemoteOpOutcome)
  | stats
  | cleanup (now : Nat)
  | destroy

/-- Apply one operation to the facade state. -/
def applyOp (s : EnhancedCacheState κ α) : CacheOp κ α → EnhancedCacheState κ α
  | .get k now o rt => (ecmGet s k now o rt).1
  | .set k v ttl? now o rt => ecmSet s k v ttl? now o rt
  | .del k o => ecmDelete s k o
  | .existsKey k now o => (ecmExistsKey s k now o).1
  | .mget args now => (ecmMget s now args).1
  | .mset items now => ecmMset s now items
  | .clear o => ecmClear s o
  | .stats => ecmGetStatsApply s
  | .cleanup now => ecmCleanup s now
  | .destroy => ecmDestroy s

/-- The facade state after a sequence of completed operations on a manager
constructed with configuration cfg. -/
def runOps (cfg : EnhancedCacheConfig) (ops : List (CacheOp κ α)) :
    EnhancedCacheState κ α :=
  ops.foldl applyOp (ecmNew cfg)

/-! ### Lemmas about the Map model -/

theorem mapFind_mapSet_self (m : List (κ × β)) (k : κ) (v : β) :
    mapFind (mapSet m k v) k = some v := by
  induction m with
  | nil => simp [mapSet, mapFind]
  | cons p rest ih =>
      obtain ⟨k', v'⟩ := p
      by_cases h : k' = k
      · simp [mapSet, h, mapFind]
      · simp [mapSet, h, mapFind, ih]

theorem mapFind_eq_none_iff {m : List (κ × β)} {k : κ} :
    mapFind m k = none ↔ k ∉ mapKeys m := by
  induction m with
  | nil => simp [mapFind, mapKeys]
  | cons p rest ih =>
      obtain ⟨k', v'⟩ := p
      by_cases h : k' = k
      · simp [mapFind, h, mapKeys]
      · simp [mapFind, h, mapKeys] at ih ⊢
        exact ⟨fun hf => ⟨fun he => h he.symm, ih.mp hf⟩, fun hn => ih.mpr hn.2⟩

theorem mem_mapKeys_of_mapFind {m : List (κ × β)} {k : κ} {v : β}
    (h : mapFind m k = some v) : k ∈ mapKeys m := by
  by_contra hk
  rw [← mapFind_eq_none_iff] at hk
  rw [h] at hk
  exact Option.noConfusion hk

theorem mem_mapSet {m : List (κ × β)} {k : κ} {v : β} {p : κ × β}
    (h : p ∈ mapSet m k v) : p = (k, v) ∨ p ∈ m := by
  induction m with
  | nil => simpa [mapSet] using h
  | cons q rest ih =>
      obtain ⟨k', v'⟩ := q
      by_cases hk : k' = k
      · simp [mapSet, hk] at h
        rcases h with h | h
        · left; simp [h]
        · right; simp [h]
      · simp [mapSet, hk] at h
        rcases h with h | h
        · right; simp [h]
        · rcases ih h with h' | h'
          · left; exact h'
          · right; exact List.mem_cons_of_mem _ h'

theorem mapKeys_mapSet (m : List (κ × β)) (k : κ) (v : β) :
    mapKeys (mapSet m k v) =
      if k ∈ mapKeys m then mapKeys m else mapKeys m ++ [k] := by
  induction m with
  | nil => simp [mapSet, mapKeys]
  | cons p rest ih =>
      obtain ⟨k', v'⟩ := p
      by_cases h : k' = k
      · simp [mapSet, h, mapKeys]
      · have hne : ¬ k = k' := fun he => h he.symm
        simp only [mapKeys, List.map_cons] at ih ⊢
        by_cases hmem : k ∈ List.map Prod.fst rest
        · simp [mapSet, h, hne, hmem, ih]
        · simp [mapSet, h, hne, hmem, ih]

theorem length_mapSet (m : List (κ × β)) (k : κ) (v : β) :
    (mapSet m k v).length =
      if k ∈ mapKeys m then m.length else m.length + 1 := by
  have h1 : (mapSet m k v).length = (mapKeys (mapSet m k v)).length := by
    simp [mapKeys]
  have h2 : (mapKeys m).length = m.length := by simp [mapKeys]
  rw [h1, mapKeys_mapSet]
  by_cases h : k ∈ mapKeys m <;> simp [h, h2]

theorem keysNodup_mapSet {m : List (κ × β)} (k : κ) (v : β)
    (hnd : keysNodup m) : keysNodup (mapSet m k v) := by
  unfold keysNodup at hnd ⊢
  rw [mapKeys_mapSet]
  by_cases h : k ∈ mapKeys m
  · simpa [h] using hnd
  · simp only [h, if_false]
    rw [List.nodup_append]
    refine ⟨hnd, List.nodup_singleton k, ?_⟩
    intro a ha hb
    rw [List.mem_singleton] at hb
    exact h (hb ▸ ha)

theorem keysNodup_cons {q : κ × β} {rest : List (κ × β)}
    (hnd : keysNodup (q :: rest)) : q.1 ∉ mapKeys rest ∧ keysNodup rest := by
  unfold keysNodup mapKeys at hnd ⊢
  rw [List.map_cons, List.nodup_cons] at hnd
  exact hnd

theorem eq_of_mem_mapSet_key {m : List (κ × β)} {k : κ} {v : β} {p : κ × β}
    (hnd : keysNodup m) (hp : p ∈ mapSet m k v) (hk : p.1 = k) : p = (k, v) := by
  induction m with
  | nil =>
      simpa [mapSet] using hp
  | cons q rest ih =>
      obtain ⟨k', v'⟩ := q
      obtain ⟨hhead, hnd'⟩ := keysNodup_cons hnd
      by_cases h : k' = k
      · simp [mapSet, h] at hp
        rcases hp with hp | hp
        · simp [hp]
        · exfalso
          have hkk : k ∈ mapKeys rest := by
            have := List.mem_map_of_mem Prod.fst hp
            simpa [mapKeys, hk] using this
          exact hhead (by simpa [h] using hkk)
      · simp [mapSet, h] at hp
        rcases hp with hp | hp
        · exfalso
          exact h (by simpa [hp] using hk)
        · exact ih hnd' hp

theorem mem_mapDelete {m : List (κ × β)} {k : κ} {p : κ × β} :
    p ∈ mapDelete m k ↔ p ∈ m ∧ ¬ p.1 = k := by
  induction m with
  | nil => simp [mapDelete]
  | cons q rest ih =>
      obtain ⟨k', v'⟩ := q
      by_cases h : k' = k
      · simp only [mapDelete, if_pos h, ih, List.mem_cons]
        constructor
        · rintro ⟨hm, hne⟩
          exact ⟨Or.inr hm, hne⟩
        · rintro ⟨hm | hm, hne⟩
          · exact absurd (by rw [hm, h]) hne
          · exact ⟨hm, hne⟩
      · simp only [mapDelete, if_neg h, List.mem_cons, ih]
        constructor
        · rintro (he | ⟨hm, hne⟩)
          · refine ⟨Or.inl he, ?_⟩
            intro hh
            rw [he] at hh
            exact h hh
          · exact ⟨Or.inr hm, hne⟩
        · rintro ⟨he | hm, hne⟩
          · exact Or.inl he
          · exact Or.inr ⟨hm, hne⟩

theorem mapDelete_sublist (m : List (κ × β)) (k : κ) :
    (mapDelete m k).Sublist m := by
  induction m with
  | nil => simp [mapDelete]
  | cons q rest ih =>
      obtain ⟨k', v'⟩ := q
      by_cases h : k' = k
      · simp only [mapDelete, if_pos h]
        exact ih.cons (k', v')
      · simp only [mapDelete, if_neg h]
        exact ih.cons₂ (k', v')

theorem keysNodup_mapDelete {m : List (κ × β)} (k : κ)
    (hnd : keysNodup m) : keysNodup (mapDelete m k) :=
  ((mapDelete_sublist m k).map Prod.fst).nodup hnd

theorem mem_mapKeys_mapDelete {m : List (κ × β)} {k k' : κ} :
    k' ∈ mapKeys (mapDelete m k) ↔ k' ∈ mapKeys m ∧ ¬ k' = k := by
  unfold mapKeys
  constructor
  · intro h
    rcases List.mem_map.mp h with ⟨p, hp, hk⟩
    rcases mem_mapDelete.mp hp with ⟨hm, hne⟩
    exact ⟨hk ▸ List.mem_map_of_mem Prod.fst hm, hk ▸ hne⟩
  · rintro ⟨hm, hne⟩
    rcases List.mem_map.mp hm with ⟨p, hp, hk⟩
    exact hk ▸ List.mem_map_of_mem Prod.fst
      (mem_mapDelete.mpr ⟨hp, by rw [hk]; exact hne⟩)

theorem mem_mapKeys_cons {q : κ × β} {rest : List (κ × β)} {k : κ} :
    k ∈ mapKeys (q :: rest) ↔ k = q.1 ∨ k ∈ mapKeys rest := by
  unfold mapKeys
  rw [List.map_cons, List.mem_cons]

theorem mapDelete_eq_of_notMem {m : List (κ × β)} {k : κ}
    (h : k ∉ mapKeys m) : mapDelete m k = m := by
  induction m with
  | nil => simp [mapDelete]
  | cons q rest ih =>
      obtain ⟨k', v'⟩ := q
      have h1 : ¬ k' = k := by
        intro he
        exact h (mem_mapKeys_cons.mpr (Or.inl he.symm))
      have h2 : k ∉ mapKeys rest := by
        intro hk
        exact h (mem_mapKeys_cons.mpr (Or.inr hk))
      simp only [mapDelete, if_neg h1]
      rw [ih h2]

theorem length_mapDelete_of_mem {m : List (κ × β)} {k : κ}
    (hnd : keysNodup m) (hk : k ∈ mapKeys m) :
    (mapDelete m k).length + 1 = m.length := by
  induction m with
  | nil => simp [mapKeys] at hk
  | cons q rest ih =>
      obtain ⟨k', v'⟩ := q
      obtain ⟨hhead, hnd'⟩ := keysNodup_cons hnd
      by_cases h : k' = k
      · subst h
        simp [mapDelete, mapDelete_eq_of_notMem hhead]
      · have hk' : k ∈ mapKeys rest := by
          rcases mem_mapKeys_cons.mp hk with hk | hk
          · exact absurd hk.symm h
          · exact hk
        have := ih hnd' hk'
        simp only [mapDelete, if_neg h, List.length_cons]
        omega

theorem mapFind_some_mem {m : List (κ × β)} {k : κ} {v : β}
    (h : mapFind m k = some v) : (k, v) ∈ m := by
  induction m with
  | nil => simp [mapFind] at h
  | cons q rest ih =>
      obtain ⟨k', v'⟩ := q
      by_cases hk : k' = k
      · rw [mapFind, if_pos hk] at h
        subst hk
        simp [Option.some_inj.mp h]
      · rw [mapFind, if_neg hk] at h
        exact List.mem_cons_of_mem _ (ih h)

theorem eq_of_keysNodup_mem {m : List (κ × β)} (hnd : keysNodup m)
    {p q : κ × β} (hp : p ∈ m) (hq : q ∈ m) (hk : p.1 = q.1) : p = q := by
  induction m with
  | nil => simp at hp
  | cons r rest ih =>
      obtain ⟨hhead, hnd'⟩ := keysNodup_cons hnd
      rcases List.mem_cons.mp hp with hp' | hp' <;>
        rcases List.mem_cons.mp hq with hq' | hq'
      · rw [hp', hq']
      · exfalso
        apply hhead
        rw [← hp', hk]
        exact List.mem_map_of_mem Prod.fst hq'
      · exfalso
        apply hhead
        rw [← hq', ← hk]
        exact List.mem_map_of_mem Prod.fst hp'
      · exact ih hnd' hp' hq'

theorem mapFind_mapDelete_ne {m : List (κ × β)} {k k' : κ} (h : ¬ k' = k) :
    mapFind (mapDelete m k') k = mapFind m k := by
  induction m with
  | nil => rfl
  | cons q rest ih =>
      obtain ⟨a, b⟩ := q
      by_cases ha : a = k'
      · have hak : ¬ a = k := fun hh => h (ha ▸ hh)
        rw [mapDelete, if_pos ha, mapFind, if_neg hak, ih]
      · rw [mapDelete, if_neg ha, mapFind, mapFind]
        by_cases hak : a = k
        · rw [if_pos hak, if_pos hak]
        · rw [if_neg hak, if_neg hak, ih]

theorem mapFind_mapDelete_self {m : List (κ × β)} {k : κ} :
    mapFind (mapDelete m k) k = none := by
  rw [mapFind_eq_none_iff]
  intro h
  exact (mem_mapKeys_mapDelete.mp h).2 rfl

theorem mapFind_foldlDelete_notMem {ks : List κ} {m : List (κ × β)} {k : κ}
    (h : k ∉ ks) : mapFind (ks.foldl mapDelete m) k = mapFind m k := by
  induction ks generalizing m with
  | nil => rfl
  | cons k' ks ih =>
      rw [List.foldl_cons,
        ih (fun hk => h (List.mem_cons_of_mem _ hk))]
      exact mapFind_mapDelete_ne (fun he => h (by rw [he]; exact List.mem_cons_self _ _))

theorem mapFind_foldlDelete_mem {ks : List κ} {m : List (κ × β)} {k : κ}
    (h : k ∈ ks) : mapFind (ks.foldl mapDelete m) k = none := by
  induction ks generalizing m with
  | nil => simp at h
  | cons k' ks ih =>
      rw [List.foldl_cons]
      by_cases hm : k ∈ ks
      · exact ih hm
      · have hk' : k' = k := by
          rcases List.mem_cons.mp h with h' | h'
          · exact h'.symm
          · exact absurd h' hm
        rw [mapFind_foldlDelete_notMem hm, hk']
        exact mapFind_mapDelete_self

theorem mem_foldlDelete {ks : List κ} {m : List (κ × β)} {p : κ × β} :
    p ∈ ks.foldl mapDelete m ↔ p ∈ m ∧ p.1 ∉ ks := by
  induction ks generalizing m with
  | nil => simp
  | cons k' ks ih =>
      rw [List.foldl_cons, ih, mem_mapDelete, List.mem_cons]
      constructor
      · rintro ⟨⟨hm, hne⟩, hnk⟩
        exact ⟨hm, by rintro (h | h); exacts [hne h, hnk h]⟩
      · rintro ⟨hm, hnk⟩
        exact ⟨⟨hm, fun h => hnk (Or.inl h)⟩, fun h => hnk (Or.inr h)⟩

theorem keysNodup_foldlDelete {ks : List κ} {m : List (κ × β)}
    (hnd : keysNodup m) : keysNodup (ks.foldl mapDelete m) := by
  induction ks generalizing m with
  | nil => exact hnd
  | cons k' ks ih =>
      rw [List.foldl_cons]
      exact ih (keysNodup_mapDelete k' hnd)

theorem foldlDelete_sublist (ks : List κ) (m : List (κ × β)) :
    (ks.foldl mapDelete m).Sublist m := by
  induction ks generalizing m with
  | nil => exact List.Sublist.refl m
  | cons k' ks ih =>
      rw [List.foldl_cons]
      exact (ih (mapDelete m k')).trans (mapDelete_sublist m k')

theorem length_foldlDelete {ks : List κ} {m : List (κ × β)}
    (hnd : keysNodup m) (hknd : ks.Nodup) (hsub : ∀ x ∈ ks, x ∈ mapKeys m) :
    (ks.foldl mapDelete m).length + ks.length = m.length := by
  induction ks generalizing m with
  | nil => simp
  | cons k' ks ih =>
      rw [List.nodup_cons] at hknd
      rw [List.foldl_cons]
      have hmem : k' ∈ mapKeys m := hsub k' (List.mem_cons_self _ _)
      have hsub' : ∀ x ∈ ks, x ∈ mapKeys (mapDelete m k') := by
        intro x hx
        exact mem_mapKeys_mapDelete.mpr
          ⟨hsub x (List.mem_cons_of_mem _ hx), fun he => hknd.1 (he ▸ hx)⟩
      have h1 := ih (keysNodup_mapDelete k' hnd) hknd.2 hsub'
      have h2 := length_mapDelete_of_mem hnd hmem
      simp only [List.length_cons]
      omega

/-! ### Lemmas about the eviction sort -/

theorem insertLA_perm (x : κ × CacheItem α) (l : List (κ × CacheItem α)) :
    List.Perm (insertLA x l) (x :: l) := by
  induction l with
  | nil => exact List.Perm.refl _
  | cons y ys ih =>
      by_cases h : laKey y < laKey x
      · simp only [insertLA, if_pos h]
        exact (ih.cons y).trans (List.Perm.swap x y ys)
      · simp only [insertLA, if_neg h]
        exact List.Perm.refl _

theorem sortLA_perm (l : List (κ × CacheItem α)) :
    List.Perm (sortLA l) l := by
  induction l with
  | nil => exact List.Perm.refl _
  | cons x xs ih =>
      exact (insertLA_perm x (sortLA xs)).trans (ih.cons x)

theorem pairwise_insertLA {l : List (κ × CacheItem α)} (x : κ × CacheItem α)
    (h : l.Pairwise (fun p q => laKey p ≤ laKey q)) :
    (insertLA x l).Pairwise (fun p q => laKey p ≤ laKey q) := by
  induction l with
  | nil => simp [insertLA]
  | cons y ys ih =>
      rw [List.pairwise_cons] at h
      by_cases hc : laKey y < laKey x
      · simp only [insertLA, if_pos hc]
        rw [List.pairwise_cons]
        refine ⟨?_, ih h.2⟩
        intro z hz
        rcases List.mem_cons.mp ((insertLA_perm x ys).mem_iff.mp hz) with rfl | hz'
        · exact Nat.le_of_lt hc
        · exact h.1 z hz'
      · simp only [insertLA, if_neg hc]
        have hxy : laKey x ≤ laKey y := Nat.le_of_not_lt hc
        rw [List.pairwise_cons]
        refine ⟨?_, ?_⟩
        · intro z hz
          rcases List.mem_cons.mp hz with rfl | hz'
          · exact hxy
          · exact hxy.trans (h.1 z hz')
        · rw [List.pairwise_cons]
          exact h

theorem sortLA_pairwise (l : List (κ × CacheItem α)) :
    (sortLA l).Pairwise (fun p q => laKey p ≤ laKey q) := by
  induction l with
  | nil => simp [sortLA]
  | cons x xs ih => exact pairwise_insertLA x ih

/-! ### Lemmas about the eviction pass -/

theorem keysNodup_sortLA {m : List (κ × CacheItem α)} (hnd : keysNodup m) :
    keysNodup (sortLA m) :=
  (((sortLA_perm m).map Prod.fst).nodup_iff).mpr hnd

theorem evictKeys_nodup {m : List (κ × CacheItem α)} (hnd : keysNodup m) :
    (evictKeys m).Nodup := by
  unfold evictKeys
  have h1 : ((sortLA m).take ((sortLA m).length / 10)).Sublist (sortLA m) :=
    List.take_sublist _ _
  exact (h1.map Prod.fst).nodup (keysNodup_sortLA hnd)

theorem evictKeys_sub {m : List (κ × CacheItem α)} :
    ∀ x ∈ evictKeys m, x ∈ mapKeys m := by
  intro x hx
  unfold evictKeys at hx
  rcases List.mem_map.mp hx with ⟨p, hp, hk⟩
  have hp' : p ∈ sortLA m := (List.take_sublist _ _).mem hp
  have hp'' : p ∈ m := (sortLA_perm m).mem_iff.mp hp'
  exact hk ▸ List.mem_map_of_mem Prod.fst hp''

theorem evictKeys_length {m : List (κ × CacheItem α)} :
    (evictKeys m).length = m.length / 10 := by
  unfold evictKeys
  rw [List.length_map, List.length_take, (sortLA_perm m).length_eq]
  exact Nat.min_eq_left (Nat.div_le_self _ _)

theorem evictOldest_length {m : List (κ × CacheItem α)} (hnd : keysNodup m) :
    (evictOldest m).length + m.length / 10 = m.length := by
  unfold evictOldest
  rw [← evictKeys_length (m := m)]
  exact length_foldlDelete hnd (evictKeys_nodup hnd) evictKeys_sub

theorem keysNodup_evictOldest {m : List (κ × CacheItem α)} (hnd : keysNodup m) :
    keysNodup (evictOldest m) :=
  keysNodup_foldlDelete hnd

theorem mapFind_evictOldest_cases (m : List (κ × CacheItem α)) (k : κ) :
    mapFind (evictOldest m) k = none ∨
      mapFind (evictOldest m) k = mapFind m k := by
  by_cases h : k ∈ evictKeys m
  · exact Or.inl (mapFind_foldlDelete_mem h)
  · exact Or.inr (mapFind_foldlDelete_notMem h)

theorem take_drop_laKey_le {m : List (κ × CacheItem α)} {j : Nat}
    {p q : κ × CacheItem α} (hp : p ∈ (sortLA m).take j)
    (hq : q ∈ (sortLA m).drop j) : laKey p ≤ laKey q := by
  have hs := sortLA_pairwise m
  rw [← List.take_append_drop j (sortLA m), List.pairwise_append] at hs
  exact hs.2.2 p hp q hq

theorem mapFind_evictOldest_max {m : List (κ × CacheItem α)} {k : κ}
    {it : CacheItem α} (hnd : keysNodup m) (hfind : mapFind m k = some it)
    (hmax : ∀ q ∈ m, ¬ q.1 = k → laKey q < it.lastAccessed) :
    mapFind (evictOldest m) k = some it := by
  by_cases hks : k ∈ evictKeys m
  · exfalso
    unfold evictKeys at hks
    rcases List.mem_map.mp hks with ⟨p, hp, hpk⟩
    have hpm : p ∈ m := (sortLA_perm m).mem_iff.mp ((List.take_sublist _ _).mem hp)
    have hpe : p = (k, it) :=
      eq_of_keysNodup_mem hnd hpm (mapFind_some_mem hfind) (by rw [hpk])
    have hlen : (sortLA m).length / 10 < (sortLA m).length := by
      apply Nat.div_lt_self _ (by norm_num)
      rw [(sortLA_perm m).length_eq]
      exact List.length_pos.mpr (by rintro rfl; simp [mapFind] at hfind)
    have hdrop : ((sortLA m).drop ((sortLA m).length / 10)) ≠ [] := by
      rw [← List.length_pos, List.length_drop]
      omega
    obtain ⟨q, hq⟩ := List.exists_mem_of_ne_nil _ hdrop
    have hqs : q ∈ sortLA m := (List.drop_sublist _ _).mem hq
    have hqm : q ∈ m := (sortLA_perm m).mem_iff.mp hqs
    have hle : laKey p ≤ laKey q := take_drop_laKey_le hp hq
    by_cases hqk : q.1 = k
    · have hqe : q = (k, it) :=
        eq_of_keysNodup_mem hnd hqm (mapFind_some_mem hfind) hqk
      have hnds := keysNodup_sortLA (m := m) hnd
      unfold keysNodup at hnds
      rw [← List.take_append_drop ((sortLA m).length / 10) (sortLA m)] at hnds
      unfold mapKeys at hnds
      rw [List.map_append, List.nodup_append] at hnds
      exact hnds.2.2 (List.mem_map_of_mem Prod.fst hp)
        (by rw [hpe, ← hqe]; exact List.mem_map_of_mem Prod.fst hq)
    · have := hmax q hqm hqk
      rw [hpe] at hle
      have hpla : laKey (k, it) = it.lastAccessed := rfl
      omega
  · rw [evictOldest, mapFind_foldlDelete_notMem hks, hfind]

/-! ### Facts about the facade operations -/

theorem memoryLookup_some_find {s : EnhancedCacheState κ α} {k : κ} {now : Nat}
    {item : CacheItem α} (h : memoryLookup s k now = some item) :
    mapFind s.memoryCache k = some item := by
  unfold memoryLookup at h
  by_cases he : s.config.enableMemoryCache = true
  · rw [if_pos he] at h
    cases hf : mapFind s.memoryCache k with
    | none => rw [hf] at h; simp at h
    | some it =>
        rw [hf] at h
        cases hex : isExpired it now
        · simp [hex] at h
          rw [h]
        · simp [hex] at h
  · rw [if_neg he] at h
    simp at h

theorem memoryLookup_fresh {s : EnhancedCacheState κ α} {k : κ} {now : Nat}
    {item : CacheItem α} (he : s.config.enableMemoryCache = true)
    (hf : mapFind s.memoryCache k = some item)
    (hex : isExpired item now = false) :
    memoryLookup s k now = some item := by
  unfold memoryLookup
  rw [if_pos he, hf]
  simp [hex]

theorem memoryLookup_expired {s : EnhancedCacheState κ α} {k : κ} {now : Nat}
    {item : CacheItem α} (hf : mapFind s.memoryCache k = some item)
    (hex : isExpired item now = true) :
    memoryLookup s k now = none := by
  unfold memoryLookup
  by_cases he : s.config.enableMemoryCache = true
  · rw [if_pos he, hf]
    simp [hex]
  · rw [if_neg he]

theorem memoryLookup_absent {s : EnhancedCacheState κ α} {k : κ} {now : Nat}
    (hf : mapFind s.memoryCache k = none) :
    memoryLookup s k now = none := by
  unfold memoryLookup
  by_cases he : s.config.enableMemoryCache = true
  · rw [if_pos he, hf]
  · rw [if_neg he]

theorem remoteGetPhase_of_none {s : EnhancedCacheState κ α} {k : κ}
    {now : Nat} {o : RemoteGetOutcome α} {rt : Nat} (h : s.redisCache = none) :
    remoteGetPhase s k now o rt =
      ({ s with totalMisses := s.totalMisses + 1 }, none) := by
  unfold remoteGetPhase
  rw [h]
  cases s.backendType <;> rfl

theorem remoteSetPhase_of_none {s : EnhancedCacheState κ α}
    {o : RemoteOpOutcome} {rt : Nat} (h : s.redisCache = none) :
    remoteSetPhase s o rt = s := by
  unfold remoteSetPhase
  rw [h]
  cases s.backendType <;> rfl

theorem remoteDeletePhase_of_none {s : EnhancedCacheState κ α}
    {o : RemoteOpOutcome} (h : s.redisCache = none) :
    remoteDeletePhase s o = s := by
  unfold remoteDeletePhase
  rw [h]
  cases s.backendType <;> rfl

theorem remoteClearPhase_of_none {s : EnhancedCacheState κ α}
    {o : RemoteOpOutcome} (h : s.redisCache = none) :
    remoteClearPhase s o = s := by
  unfold remoteClearPhase
  rw [h]
  cases s.backendType <;> rfl

theorem remoteExistsPhase_of_none {s : EnhancedCacheState κ α}
    {o : Option Bool} (h : s.redisCache = none) :
    remoteExistsPhase s o = (s, false) := by
  unfold remoteExistsPhase
  rw [h]
  cases s.backendType <;> rfl

theorem sweepExpired_sublist (m : List (κ × CacheItem α)) (now : Nat) :
    (sweepExpired m now).Sublist m := by
  induction m with
  | nil => simp [sweepExpired]
  | cons q rest ih =>
      obtain ⟨k', it⟩ := q
      cases h : isExpired it now
      · simp only [sweepExpired, h]
        exact ih.cons₂ (k', it)
      · simp only [sweepExpired, h]
        exact ih.cons (k', it)

/-! ### The reachable-state invariant of the facade -/

/-- Invariant of every facade state reachable from construction: the redis
client reference is null (the current source never initializes it), the
memory map respects the capacity bound and has unique keys, and the request
counter splits into hits plus misses. -/
def GoodState (s : EnhancedCacheState κ α) : Prop :=
  s.redisCache = none ∧ s.memoryCache.length ≤ 1000 ∧ keysNodup s.memoryCache ∧
    s.totalRequests = s.totalHits + s.totalMisses

theorem checkMemoryLimit_proj (s : EnhancedCacheState κ α) :
    (checkMemoryLimit s).redisCache = s.redisCache ∧
    (checkMemoryLimit s).config = s.config ∧
    (checkMemoryLimit s).totalRequests = s.totalRequests ∧
    (checkMemoryLimit s).totalHits = s.totalHits ∧
    (checkMemoryLimit s).totalMisses = s.totalMisses ∧
    (checkMemoryLimit s).backendType = s.backendType ∧
    (checkMemoryLimit s).cleanupTimer = s.cleanupTimer := by
  unfold checkMemoryLimit
  split <;> exact ⟨rfl, rfl, rfl, rfl, rfl, rfl, rfl⟩

theorem good_checkMemoryLimit {s : EnhancedCacheState κ α}
    (hnd : keysNodup s.memoryCache) (hlen : s.memoryCache.length ≤ 1001) :
    (checkMemoryLimit s).memoryCache.length ≤ 1000 ∧
      keysNodup (checkMemoryLimit s).memoryCache := by
  unfold checkMemoryLimit
  by_cases h : 1000 < s.memoryCache.length
  · rw [if_pos h]
    have h1001 : s.memoryCache.length = 1001 := by omega
    have hev := evictOldest_length (m := s.memoryCache) hnd
    rw [h1001] at hev
    norm_num at hev
    refine ⟨?_, keysNodup_evictOldest hnd⟩
    show (evictOldest s.memoryCache).length ≤ 1000
    omega
  · rw [if_neg h]
    exact ⟨by omega, hnd⟩

theorem good_ecmGet {s : EnhancedCacheState κ α} {k : κ} {now : Nat}
    {o : RemoteGetOutcome α} {rt : Nat} (h : GoodState s) :
    GoodState (ecmGet s k now o rt).1 := by
  obtain ⟨hr, hlen, hnd, hstats⟩ := h
  simp only [ecmGet]
  cases hml : memoryLookup { s with totalRequests := s.totalRequests + 1 } k now with
  | some item =>
      have hfind : mapFind s.memoryCache k = some item := memoryLookup_some_find hml
      have hkm : k ∈ mapKeys s.memoryCache := mem_mapKeys_of_mapFind hfind
      refine ⟨hr, ?_, ?_, ?_⟩
      · show (mapSet s.memoryCache k _).length ≤ 1000
        rw [length_mapSet, if_pos hkm]
        exact hlen
      · exact keysNodup_mapSet _ _ hnd
      · show s.totalRequests + 1 = s.totalHits + 1 + s.totalMisses
        omega
  | none =>
      show GoodState (remoteGetPhase
        { s with totalRequests := s.totalRequests + 1 } k now o rt).1
      rw [remoteGetPhase_of_none (show ({ s with totalRequests :=
        s.totalRequests + 1 } : EnhancedCacheState κ α).redisCache = none from hr)]
      refine ⟨hr, hlen, hnd, ?_⟩
      show s.totalRequests + 1 = s.totalHits + (s.totalMisses + 1)
      omega

theorem good_ecmSet {s : EnhancedCacheState κ α} {k : κ} {v : α}
    {ttl? : Option Nat} {now : Nat} {o : RemoteOpOutcome} {rt : Nat}
    (h : GoodState s) : GoodState (ecmSet s k v ttl? now o rt) := by
  obtain ⟨hr, hlen, hnd, hstats⟩ := h
  simp only [ecmSet]
  by_cases he : s.config.enableMemoryCache = true
  · rw [if_pos he]
    set item : CacheItem α :=
      { data := v, timestamp := now, ttl := ttl?.getD s.config.defaultTtl,
        accessCount := 0, lastAccessed := now } with hitem
    set s2 : EnhancedCacheState κ α :=
      { s with memoryCache := mapSet s.memoryCache k item } with hs2
    rw [remoteSetPhase_of_none (show s2.redisCache = none from hr)]
    have hnd' : keysNodup s2.memoryCache := keysNodup_mapSet _ _ hnd
    have hlen' : s2.memoryCache.length ≤ 1001 := by
      show (mapSet _ _ _).length ≤ 1001
      rw [length_mapSet]
      split <;> omega
    obtain ⟨hcl1, hcl2⟩ := good_checkMemoryLimit hnd' hlen'
    refine ⟨?_, hcl1, hcl2, ?_⟩
    · rw [(checkMemoryLimit_proj _).1]
      exact hr
    · rw [(checkMemoryLimit_proj _).2.2.1, (checkMemoryLimit_proj _).2.2.2.1,
        (checkMemoryLimit_proj _).2.2.2.2.1]
      exact hstats
  · rw [if_neg he]
    rw [remoteSetPhase_of_none hr]
    obtain ⟨hcl1, hcl2⟩ := good_checkMemoryLimit hnd (by omega)
    refine ⟨?_, hcl1, hcl2, ?_⟩
    · rw [(checkMemoryLimit_proj _).1]
      exact hr
    · rw [(checkMemoryLimit_proj _).2.2.1, (checkMemoryLimit_proj _).2.2.2.1,
        (checkMemoryLimit_proj _).2.2.2.2.1]
      exact hstats

theorem good_ecmDelete {s : EnhancedCacheState κ α} {k : κ}
    {o : RemoteOpOutcome} (h : GoodState s) : GoodState (ecmDelete s k o) := by
  obtain ⟨hr, hlen, hnd, hstats⟩ := h
  simp only [ecmDelete]
  by_cases he : s.config.enableMemoryCache = true
  · rw [if_pos he]
    set s2 : EnhancedCacheState κ α :=
      { s with memoryCache := mapDelete s.memoryCache k } with hs2
    rw [remoteDeletePhase_of_none (show s2.redisCache = none from hr)]
    refine ⟨hr, ?_, keysNodup_mapDelete _ hnd, hstats⟩
    exact le_trans (mapDelete_sublist _ _).length_le hlen
  · rw [if_neg he]
    rw [remoteDeletePhase_of_none hr]
    exact ⟨hr, hlen, hnd, hstats⟩

theorem good_ecmExistsKey {s : EnhancedCacheState κ α} {k : κ} {now : Nat}
    {o : Option Bool} (h : GoodState s) : GoodState (ecmExistsKey s k now o).1 := by
  obtain ⟨hr, hlen, hnd, hstats⟩ := h
  simp only [ecmExistsKey]
  cases memoryLookup s k now with
  | some item => exact ⟨hr, hlen, hnd, hstats⟩
  | none =>
      rw [remoteExistsPhase_of_none hr]
      exact ⟨hr, hlen, hnd, hstats⟩

theorem good_ecmClear {s : EnhancedCacheState κ α} {o : RemoteOpOutcome}
    (h : GoodState s) : GoodState (ecmClear s o) := by
  obtain ⟨hr, hlen, hnd, hstats⟩ := h
  simp only [ecmClear]
  by_cases he : s.config.enableMemoryCache = true
  · rw [if_pos he]
    set s2 : EnhancedCacheState κ α :=
      { s with memoryCache := [] } with hs2
    rw [remoteClearPhase_of_none (show s2.redisCache = none from hr)]
    exact ⟨hr, by simp, by simp [keysNodup, mapKeys], rfl⟩
  · rw [if_neg he]
    rw [remoteClearPhase_of_none hr]
    exact ⟨hr, hlen, hnd, rfl⟩

theorem good_ecmCleanup {s : EnhancedCacheState κ α} {now : Nat}
    (h : GoodState s) : GoodState (ecmCleanup s now) := by
  obtain ⟨hr, hlen, hnd, hstats⟩ := h
  refine ⟨hr, ?_, ?_, hstats⟩
  · exact le_trans (sweepExpired_sublist _ _).length_le hlen
  · exact ((sweepExpired_sublist _ _).map Prod.fst).nodup hnd

theorem good_ecmMget {args : List (κ × RemoteGetOutcome α × Nat)}
    {s : EnhancedCacheState κ α} {now : Nat} (h : GoodState s) :
    GoodState (ecmMget s now args).1 := by
  induction args generalizing s with
  | nil => exact h
  | cons a rest ih =>
      obtain ⟨k, o, rt⟩ := a
      exact ih (good_ecmGet h)

theorem good_ecmMset {items : List (κ × α × Option Nat × RemoteOpOutcome × Nat)}
    {s : EnhancedCacheState κ α} {now : Nat} (h : GoodState s) :
    GoodState (ecmMset s now items) := by
  induction items generalizing s with
  | nil => exact h
  | cons a rest ih =>
      obtain ⟨k, v, ttl?, o, rt⟩ := a
      exact ih (good_ecmSet h)

theorem good_applyOp {s : EnhancedCacheState κ α} {op : CacheOp κ α}
    (h : GoodState s) : GoodState (applyOp s op) := by
  cases op with
  | get k now o rt => exact good_ecmGet h
  | set k v ttl? now o rt => exact good_ecmSet h
  | del k o => exact good_ecmDelete h
  | existsKey k now o => exact good_ecmExistsKey h
  | mget args now => exact good_ecmMget h
  | mset items now => exact good_ecmMset h
  | clear o => exact good_ecmClear h
  | stats => exact h
  | cleanup now => exact good_ecmCleanup h
  | destroy =>
      exact ⟨rfl, by simp [applyOp, ecmDestroy],
        by simp [applyOp, ecmDestroy, keysNodup, mapKeys], h.2.2.2⟩

theorem good_ecmNew (cfg : EnhancedCacheConfig) :
    GoodState (ecmNew cfg : EnhancedCacheState κ α) :=
  ⟨rfl, by simp [ecmNew], by simp [ecmNew, keysNodup, mapKeys], rfl⟩

theorem good_foldl {ops : List (CacheOp κ α)} {s : EnhancedCacheState κ α}
    (h : GoodState s) : GoodState (ops.foldl applyOp s) := by
  induction ops generalizing s with
  | nil => exact h
  | cons op rest ih => exact ih (good_applyOp h)

theorem good_runOps (cfg : EnhancedCacheConfig) (ops : List (CacheOp κ α)) :
    GoodState (runOps cfg ops) :=
  good_foldl (good_ecmNew cfg)

/-! ### The configuration is immutable after construction -/

theorem remoteGetPhase_config (s : EnhancedCacheState κ α) (k : κ) (now : Nat)
    (o : RemoteGetOutcome α) (rt : Nat) :
    (remoteGetPhase s k now o rt).1.config = s.config := by
  simp only [remoteGetPhase]
  split
  · split
    · split <;> rfl
    · rfl
  · rfl

theorem remoteSetPhase_config (s : EnhancedCacheState κ α)
    (o : RemoteOpOutcome) (rt : Nat) :
    (remoteSetPhase s o rt).config = s.config := by
  unfold remoteSetPhase
  split <;> rfl

theorem remoteDeletePhase_config (s : EnhancedCacheState κ α)
    (o : RemoteOpOutcome) :
    (remoteDeletePhase s o).config = s.config := by
  unfold remoteDeletePhase
  split <;> rfl

theorem remoteClearPhase_config (s : EnhancedCacheState κ α)
    (o : RemoteOpOutcome) :
    (remoteClearPhase s o).config = s.config := by
  unfold remoteClearPhase
  split <;> rfl

theorem remoteExistsPhase_config (s : EnhancedCacheState κ α)
    (o : Option Bool) :
    (remoteExistsPhase s o).1.config = s.config := by
  unfold remoteExistsPhase
  split <;> rfl

theorem config_ecmGet (s : EnhancedCacheState κ α) (k : κ) (now : Nat)
    (o : RemoteGetOutcome α) (rt : Nat) :
    (ecmGet s k now o rt).1.config = s.config := by
  simp only [ecmGet]
  cases hml : memoryLookup { s with totalRequests := s.totalRequests + 1 } k now with
  | some item => rfl
  | none => exact remoteGetPhase_config _ k now o rt

theorem config_ecmSet (s : EnhancedCacheState κ α) (k : κ) (v : α)
    (ttl? : Option Nat) (now : Nat) (o : RemoteOpOutcome) (rt : Nat) :
    (ecmSet s k v ttl? now o rt).config = s.config := by
  simp only [ecmSet]
  rw [(checkMemoryLimit_proj _).2.1, remoteSetPhase_config]
  split <;> rfl

theorem config_ecmDelete (s : EnhancedCacheState κ α) (k : κ)
    (o : RemoteOpOutcome) : (ecmDelete s k o).config = s.config := by
  simp only [ecmDelete]
  rw [remoteDeletePhase_config]
  split <;> rfl

theorem config_ecmClear (s : EnhancedCacheState κ α) (o : RemoteOpOutcome) :
    (ecmClear s o).config = s.config := by
  simp only [ecmClear]
  show (remoteClearPhase _ o).config = s.config
  rw [remoteClearPhase_config]
  split <;> rfl

theorem config_ecmExistsKey (s : EnhancedCacheState κ α) (k : κ) (now : Nat)
    (o : Option Bool) : (ecmExistsKey s k now o).1.config = s.config := by
  simp only [ecmExistsKey]
  cases memoryLookup s k now with
  | some item => rfl
  | none => exact remoteExistsPhase_config s o

theorem config_ecmMget (args : List (κ × RemoteGetOutcome α × Nat))
    (s : EnhancedCacheState κ α) (now : Nat) :
    (ecmMget s now args).1.config = s.config := by
  induction args generalizing s with
  | nil => rfl
  | cons a rest ih =>
      obtain ⟨k, o, rt⟩ := a
      rw [show (ecmMget s now ((k, o, rt) :: rest)).1
          = (ecmMget (ecmGet s k now o rt).1 now rest).1 from rfl,
        ih, config_ecmGet]

theorem config_ecmMset (items : List (κ × α × Option Nat × RemoteOpOutcome × Nat))
    (s : EnhancedCacheState κ α) (now : Nat) :
    (ecmMset s now items).config = s.config := by
  induction items generalizing s with
  | nil => rfl
  | cons a rest ih =>
      obtain ⟨k, v, ttl?, o, rt⟩ := a
      rw [show ecmMset s now ((k, v, ttl?, o, rt) :: rest)
          = ecmMset (ecmSet s k v ttl? now o rt) now rest from rfl,
        ih, config_ecmSet]

theorem config_applyOp (s : EnhancedCacheState κ α) (op : CacheOp κ α) :
    (applyOp s op).config = s.config := by
  cases op with
  | get k now o rt => exact config_ecmGet s k now o rt
  | set k v ttl? now o rt => exact config_ecmSet s k v ttl? now o rt
  | del k o => exact config_ecmDelete s k o
  | existsKey k now o => exact config_ecmExistsKey s k now o
  | mget args now => exact config_ecmMget args s now
  | mset items now => exact config_ecmMset items s now
  | clear o => exact config_ecmClear s o
  | stats => rfl
  | cleanup now => rfl
  | destroy => rfl

theorem config_runOps (cfg : EnhancedCacheConfig) (ops : List (CacheOp κ α)) :
    (runOps cfg ops).config = cfg := by
  unfold runOps
  have h : ∀ (l : List (CacheOp κ α)) (s : EnhancedCacheState κ α),
      (l.foldl applyOp s).config = s.config := by
    intro l
    induction l with
    | nil => intro s; rfl
    | cons op rest ih =>
        intro s
        rw [List.foldl_cons, ih, config_applyOp]
  rw [h]
  rfl

/-! ### Behavior of the remote tier on a failed operation -/

theorem rcmGet_err {r : RedisCacheState} {rt : Nat}
    (hred : r.redis = true) (hconn : r.isConnected = true) :
    rcmGet r (RemoteGetOutcome.err : RemoteGetOutcome α) rt =
      ({ r with stats :=
           { r.stats with
             requests := r.stats.requests + 1,
             errors := r.stats.errors + 1 } },
       none) := by
  simp [rcmGet, hred, hconn]

theorem rcmSet_err {r : RedisCacheState} {rt : Nat}
    (hred : r.redis = true) (hconn : r.isConnected = true) :
    rcmSet r RemoteOpOutcome.err rt =
      { r with stats := { r.stats with errors := r.stats.errors + 1 } } := by
  simp [rcmSet, hred, hconn]

theorem rcmDelete_err {r : RedisCacheState}
    (hred : r.redis = true) (hconn : r.isConnected = true) :
    rcmDelete r RemoteOpOutcome.err =
      { r with stats := { r.stats with errors := r.stats.errors + 1 } } := by
  simp [rcmDelete, hred, hconn]

theorem remoteGetPhase_err {s : EnhancedCacheState κ α} (k : κ) (now rt : Nat)
    {r : RedisCacheState} (hb : s.backendType = BackendTy.redis)
    (hr : s.redisCache = some r) (hred : r.redis = true)
    (hconn : r.isConnected = true) :
    remoteGetPhase s k now RemoteGetOutcome.err rt =
      ({ s with
         redisCache :=
           some { r with stats :=
                    { r.stats with
                      requests := r.stats.requests + 1,
                      errors := r.stats.errors + 1 } },
         totalMisses := s.totalMisses + 1 },
       none) := by
  simp only [remoteGetPhase, hb, hr, rcmGet_err (α := α) hred hconn]

theorem remoteSetPhase_redis {s : EnhancedCacheState κ α} {o : RemoteOpOutcome}
    {rt : Nat} {r : RedisCacheState} (hb : s.backendType = BackendTy.redis)
    (hr : s.redisCache = some r) :
    remoteSetPhase s o rt = { s with redisCache := some (rcmSet r o rt) } := by
  simp only [remoteSetPhase, hb, hr]

theorem remoteDeletePhase_redis {s : EnhancedCacheState κ α}
    {o : RemoteOpOutcome} {r : RedisCacheState}
    (hb : s.backendType = BackendTy.redis) (hr : s.redisCache = some r) :
    remoteDeletePhase s o = { s with redisCache := some (rcmDelete r o) } := by
  simp only [remoteDeletePhase, hb, hr]

/-! ### The claims -/

/-- C1: for every facade state and key, when the remote tier is active and a
remote operation fails (thrown network error / timeout / serialization
failure, modelled by the err outcome), get, set and delete do not propagate
the failure: the catch inside the Remote Tier Client absorbs it (the
operations are total functions of the outcome), get degrades to a miss
(returns null), set and delete return normally (a state, no exception), and
the client's stats.errors counter increases by one in each case. -/
theorem C1_remote_failure_degrades (s : EnhancedCacheState κ α) (k : κ)
    (v : α) (ttl? : Option Nat) (now rt rt' : Nat) (r : RedisCacheState)
    (hb : s.backendType = BackendTy.redis) (hr : s.redisCache = some r)
    (hred : r.redis = true) (hconn : r.isConnected = true)
    (hmiss : memoryLookup s k now = none) :
    (ecmGet s k now RemoteGetOutcome.err rt).2 = none ∧
    ((ecmGet s k now RemoteGetOutcome.err rt).1.redisCache.map
        (fun rc => rc.stats.errors)) = some (r.stats.errors + 1) ∧
    ((ecmSet s k v ttl? now RemoteOpOutcome.err rt').redisCache.map
        (fun rc => rc.stats.errors)) = some (r.stats.errors + 1) ∧
    ((ecmDelete s k RemoteOpOutcome.err).redisCache.map
        (fun rc => rc.stats.errors)) = some (r.stats.errors + 1) := by
  have hget : ecmGet s k now RemoteGetOutcome.err rt
      = remoteGetPhase { s with totalRequests := s.totalRequests + 1 }
          k now RemoteGetOutcome.err rt := by
    simp only [ecmGet]
    rw [show memoryLookup { s with totalRequests := s.totalRequests + 1 } k now
        = none from hmiss]
  have hget2 := remoteGetPhase_err k now rt
    (show ({ s with totalRequests := s.totalRequests + 1 } :
      EnhancedCacheState κ α).backendType = BackendTy.redis from hb)
    (show ({ s with totalRequests := s.totalRequests + 1 } :
      EnhancedCacheState κ α).redisCache = some r from hr) hred hconn
  refine ⟨?_, ?_, ?_, ?_⟩
  · rw [hget, hget2]
  · rw [hget, hget2]
    rfl
  · simp only [ecmSet]
    rw [(checkMemoryLimit_proj _).1]
    by_cases he : s.config.enableMemoryCache = true
    · rw [if_pos he]
      set item : CacheItem α :=
        { data := v, timestamp := now, ttl := ttl?.getD s.config.defaultTtl,
          accessCount := 0, lastAccessed := now } with hitem
      set s2 : EnhancedCacheState κ α :=
        { s with memoryCache := mapSet s.memoryCache k item } with hs2
      rw [remoteSetPhase_redis (show s2.backendType = BackendTy.redis from hb)
        (show s2.redisCache = some r from hr), rcmSet_err hred hconn]
      rfl
    · rw [if_neg he]
      rw [remoteSetPhase_redis hb hr, rcmSet_err hred hconn]
      rfl
  · simp only [ecmDelete]
    by_cases he : s.config.enableMemoryCache = true
    · rw [if_pos he]
      set s2 : EnhancedCacheState κ α :=
        { s with memoryCache := mapDelete s.memoryCache k } with hs2
      rw [remoteDeletePhase_redis (show s2.backendType = BackendTy.redis from hb)
        (show s2.redisCache = some r from hr), rcmDelete_err hred hconn]
      rfl
    · rw [if_neg he]
      rw [remoteDeletePhase_redis hb hr, rcmDelete_err hred hconn]
      rfl

/-- Witness configuration used by several concrete instances below: the
defaults of the enhancedCacheManager singleton. -/
def cfgW : EnhancedCacheConfig :=
  { defaultTtl := 300, maxMemorySize := 52428800, cleanupInterval := 60000,
    preferredBackend := PreferredBackend.auto, enableMemoryCache := true }

/-- A connected redis-client state, for exercising the remote paths. -/
def rcmConnW : RedisCacheState :=
  { rcmNew with redis := true, isConnected := true }

/-- A facade state whose remote tier is active and connected. -/
def ecmRemoteW : EnhancedCacheState Nat Nat :=
  { ecmNew cfgW with
      backendType := BackendTy.redis,
      redisCache := some rcmConnW }

/-- C1 witness: the theorem applied at a concrete connected remote state. -/
theorem C1_remote_failure_degrades_witness :
    (ecmGet ecmRemoteW 7 0 RemoteGetOutcome.err 1).2 = none ∧
    ((ecmGet ecmRemoteW 7 0 RemoteGetOutcome.err 1).1.redisCache.map
        (fun rc => rc.stats.errors)) = some (rcmConnW.stats.errors + 1) ∧
    ((ecmSet ecmRemoteW 7 42 (some 5) 0 RemoteOpOutcome.err 1).redisCache.map
        (fun rc => rc.stats.errors)) = some (rcmConnW.stats.errors + 1) ∧
    ((ecmDelete ecmRemoteW 7 RemoteOpOutcome.err).redisCache.map
        (fun rc => rc.stats.errors)) = some (rcmConnW.stats.errors + 1) :=
  C1_remote_failure_degrades ecmRemoteW 7 42 (some 5) 0 1 1 rcmConnW
    (by rfl) (by rfl) (by rfl) (by rfl) (by rfl)

/-- C2: after every sequence of completed facade operations, the statistics
reported by getStats satisfy requests = hits + misses. -/
theorem C2_requests_split (cfg : EnhancedCacheConfig)
    (ops : List (CacheOp κ α)) :
    (ecmGetStats (runOps cfg ops)).requests =
      (ecmGetStats (runOps cfg ops)).hits +
        (ecmGetStats (runOps cfg ops)).misses :=
  (good_runOps cfg ops).2.2.2

/-! ### The reconnect/backoff state machine (claim C7) -/

theorem rcmEvent_attempts_mono {s : RedisCacheState} {e : RedisEvent}
    (h : e ≠ RedisEvent.connect) :
    s.reconnectAttempts ≤ (rcmEvent s e).reconnectAttempts := by
  cases e with
  | connect => exact absurd rfl h
  | ready => exact le_refl _
  | close => exact le_refl _
  | reconnecting => exact le_refl _
  | error =>
      show s.reconnectAttempts ≤ (scheduleReconnect _).reconnectAttempts
      unfold scheduleReconnect
      split <;> exact le_refl _
  | timerFire =>
      simp only [rcmEvent]
      cases s.reconnectTimer
      · exact le_refl _
      · exact Nat.le_succ _

theorem rcmEvent_max_const (s : RedisCacheState) (e : RedisEvent) :
    (rcmEvent s e).maxReconnectAttempts = s.maxReconnectAttempts := by
  cases e with
  | connect => rfl
  | ready => rfl
  | close => rfl
  | reconnecting => rfl
  | error =>
      show (scheduleReconnect _).maxReconnectAttempts = _
      unfold scheduleReconnect
      split <;> rfl
  | timerFire =>
      simp only [rcmEvent]
      cases s.reconnectTimer
      · rfl
      · rfl

theorem scheduledDelay_val {s : RedisCacheState} {e : RedisEvent} {d : Nat}
    (h : scheduledDelay s e = some d) :
    d = 2 ^ s.reconnectAttempts * 1000 ∧
      s.reconnectAttempts < s.maxReconnectAttempts := by
  unfold scheduledDelay at h
  by_cases hc : e = RedisEvent.error ∧
      s.reconnectAttempts < s.maxReconnectAttempts
  · rw [if_pos hc] at h
    exact ⟨(Option.some_inj.mp h).symm, hc.2⟩
  · rw [if_neg hc] at h
    exact absurd h (by simp)

theorem delayTrace_lb {es : List RedisEvent} {s : RedisCacheState}
    (h : ∀ e ∈ es, e ≠ RedisEvent.connect) :
    ∀ d ∈ delayTrace s es, 2 ^ s.reconnectAttempts * 1000 ≤ d := by
  induction es generalizing s with
  | nil => intro d hd; simp [delayTrace] at hd
  | cons e es ih =>
      intro d hd
      rw [delayTrace, List.mem_append] at hd
      rcases hd with hd | hd
      · cases ho : scheduledDelay s e with
        | none => rw [ho] at hd; simp at hd
        | some d' =>
            rw [ho] at hd
            simp at hd
            rw [hd, (scheduledDelay_val ho).1]
      · have h1 := ih (fun x hx => h x (List.mem_cons_of_mem _ hx)) d hd
        refine le_trans ?_ h1
        apply Nat.mul_le_mul_right
        exact Nat.pow_le_pow_right (by norm_num)
          (rcmEvent_attempts_mono (h e (List.mem_cons_self _ _)))

theorem delayTrace_chain {es : List RedisEvent} {s : RedisCacheState}
    (h : ∀ e ∈ es, e ≠ RedisEvent.connect) :
    List.Chain' (· ≤ ·) (delayTrace s es) := by
  induction es generalizing s with
  | nil => simp [delayTrace]
  | cons e es ih =>
      have htail : ∀ x ∈ es, x ≠ RedisEvent.connect :=
        fun x hx => h x (List.mem_cons_of_mem _ hx)
      rw [delayTrace]
      cases ho : scheduledDelay s e with
      | none => simpa using ih htail
      | some d =>
          simp only [Option.toList, List.singleton_append]
          rw [List.chain'_cons']
          refine ⟨?_, ih htail⟩
          intro b hb
          have hbm : b ∈ delayTrace (rcmEvent s e) es :=
            List.mem_of_mem_head? hb
          have h1 := delayTrace_lb htail b hbm
          have h2 : 2 ^ s.reconnectAttempts * 1000 ≤
              2 ^ (rcmEvent s e).reconnectAttempts * 1000 := by
            apply Nat.mul_le_mul_right
            exact Nat.pow_le_pow_right (by norm_num)
              (rcmEvent_attempts_mono (h e (List.mem_cons_self _ _)))
          rw [(scheduledDelay_val ho).1]
          exact le_trans h2 h1

theorem delayTrace_form {es : List RedisEvent} {s : RedisCacheState} :
    ∀ d ∈ delayTrace s es,
      ∃ a, a < s.maxReconnectAttempts ∧ d = 2 ^ a * 1000 := by
  induction es generalizing s with
  | nil => intro d hd; simp [delayTrace] at hd
  | cons e es ih =>
      intro d hd
      rw [delayTrace, List.mem_append] at hd
      rcases hd with hd | hd
      · cases ho : scheduledDelay s e with
        | none => rw [ho] at hd; simp at hd
        | some d' =>
            rw [ho] at hd
            simp at hd
            obtain ⟨h1, h2⟩ := scheduledDelay_val ho
            exact ⟨s.reconnectAttempts, h2, by rw [hd, h1]⟩
      · obtain ⟨a, ha, hd'⟩ := ih d hd
        rw [rcmEvent_max_const] at ha
        exact ⟨a, ha, hd'⟩

theorem connDisabled_step {s : RedisCacheState} {e : RedisEvent}
    (h : connDisabled s) (he : e ≠ RedisEvent.connect) :
    connDisabled (rcmEvent s e) := by
  unfold connDisabled at h ⊢
  rw [rcmEvent_max_const]
  exact le_trans h (rcmEvent_attempts_mono he)

theorem disabled_no_delay {s : RedisCacheState} {e : RedisEvent}
    (h : connDisabled s) : scheduledDelay s e = none := by
  unfold scheduledDelay
  rw [if_neg]
  rintro ⟨-, hlt⟩
  exact absurd h (by unfold connDisabled; omega)

theorem disabled_delayTrace_nil {es : List RedisEvent} {s : RedisCacheState}
    (h : connDisabled s) (hne : ∀ e ∈ es, e ≠ RedisEvent.connect) :
    delayTrace s es = [] := by
  induction es generalizing s with
  | nil => rfl
  | cons e es ih =>
      rw [delayTrace, disabled_no_delay h]
      exact ih (connDisabled_step h (hne e (List.mem_cons_self _ _)))
        (fun x hx => hne x (List.mem_cons_of_mem _ hx))

theorem disabled_timer_none_step {s : RedisCacheState} {e : RedisEvent}
    (h : connDisabled s) (ht : s.reconnectTimer = none)
    (he : e ≠ RedisEvent.connect) : (rcmEvent s e).reconnectTimer = none := by
  cases e with
  | connect => exact absurd rfl he
  | ready => exact ht
  | close => exact ht
  | reconnecting => exact ht
  | error =>
      show (scheduleReconnect _).reconnectTimer = none
      unfold scheduleReconnect
      rw [if_pos]
      · exact ht
      · exact h
  | timerFire =>
      simp only [rcmEvent]
      rw [ht]
      exact ht

theorem disabled_run {es : List RedisEvent} {s : RedisCacheState}
    (h : connDisabled s) (ht : s.reconnectTimer = none)
    (hne : ∀ e ∈ es, e ≠ RedisEvent.connect) :
    (rcmRun s es).reconnectTimer = none ∧ connDisabled (rcmRun s es) := by
  induction es generalizing s with
  | nil => exact ⟨ht, h⟩
  | cons e es ih =>
      have he := hne e (List.mem_cons_self _ _)
      exact ih (connDisabled_step h he) (disabled_timer_none_step h ht he)
        (fun x hx => hne x (List.mem_cons_of_mem _ hx))

/-- C7: along any run of events that contains no successful connection (only
failures, closes, in-flight reconnect notifications and timer firings), the
reconnect delays scheduled by scheduleReconnect form a non-decreasing
sequence, every one of them equals baseDelayMs (1000) times 2 to the attempt
number with the attempt below maxAttempts, and once the client is in the
give-up state of the spec's ConnectionState machine, the spec's Disabled
(attempt budget exhausted), it stays there for the rest of the run: no delay
is ever scheduled again and no reconnect timer ever becomes pending again
without an external connect. -/
theorem C7_backoff (s : RedisCacheState) (es : List RedisEvent)
    (hne : ∀ e ∈ es, e ≠ RedisEvent.connect) :
    List.Chain' (· ≤ ·) (delayTrace s es) ∧
    (∀ d ∈ delayTrace s es,
      ∃ a, a < s.maxReconnectAttempts ∧ d = 2 ^ a * 1000) ∧
    (connDisabled s →
      delayTrace s es = [] ∧
      (s.reconnectTimer = none →
        (rcmRun s es).reconnectTimer = none ∧ connDisabled (rcmRun s es))) :=
  ⟨delayTrace_chain hne, delayTrace_form,
    fun hd => ⟨disabled_delayTrace_nil hd hne,
      fun ht => disabled_run hd ht hne⟩⟩

/-- C7 witness: a run of five consecutive failures with their timer firings
from a fresh client, followed by further failures from the exhausted state. -/
theorem C7_backoff_witness :
    (List.Chain' (· ≤ ·) (delayTrace
      { rcmNew with redis := true, isConnected := true }
      [RedisEvent.error, RedisEvent.timerFire, RedisEvent.error,
       RedisEvent.timerFire, RedisEvent.error, RedisEvent.timerFire,
       RedisEvent.error, RedisEvent.timerFire, RedisEvent.error,
       RedisEvent.timerFire, RedisEvent.error, RedisEvent.error]) ∧
     (∀ d ∈ delayTrace { rcmNew with redis := true, isConnected := true }
        [RedisEvent.error, RedisEvent.timerFire, RedisEvent.error,
         RedisEvent.timerFire, RedisEvent.error, RedisEvent.timerFire,
         RedisEvent.error, RedisEvent.timerFire, RedisEvent.error,
         RedisEvent.timerFire, RedisEvent.error, RedisEvent.error],
        ∃ a, a < ({ rcmNew with redis := true, isConnected := true } :
            RedisCacheState).maxReconnectAttempts ∧ d = 2 ^ a * 1000) ∧
     (connDisabled { rcmNew with redis := true, isConnected := true } →
        delayTrace { rcmNew with redis := true, isConnected := true }
          [RedisEvent.error, RedisEvent.timerFire, RedisEvent.error,
           RedisEvent.timerFire, RedisEvent.error, RedisEvent.timerFire,
           RedisEvent.error, RedisEvent.timerFire, RedisEvent.error,
           RedisEvent.timerFire, RedisEvent.error, RedisEvent.error] = [] ∧
        (({ rcmNew with redis := true, isConnected := true } :
            RedisCacheState).reconnectTimer = none →
          (rcmRun { rcmNew with redis := true, isConnected := true }
            [RedisEvent.error, RedisEvent.timerFire, RedisEvent.error,
             RedisEvent.timerFire, RedisEvent.error, RedisEvent.timerFire,
             RedisEvent.error, RedisEvent.timerFire, RedisEvent.error,
             RedisEvent.timerFire, RedisEvent.error,
             RedisEvent.error]).reconnectTimer = none ∧
          connDisabled (rcmRun
            { rcmNew with redis := true, isConnected := true }
            [RedisEvent.error, RedisEvent.timerFire, RedisEvent.error,
             RedisEvent.timerFire, RedisEvent.error, RedisEvent.timerFire,
             RedisEvent.error, RedisEvent.timerFire, RedisEvent.error,
             RedisEvent.timerFire, RedisEvent.error, RedisEvent.error])))) :=
  C7_backoff _ _ (by decide)

/-- C8: at every observation point the hitRate reported by getStats lies in
the interval from 0 to 1, and it is 0 whenever requests is 0. -/
theorem C8_hitRate_bounds (cfg : EnhancedCacheConfig)
    (ops : List (CacheOp κ α)) :
    0 ≤ (ecmGetStats (runOps cfg ops)).hitRate ∧
    (ecmGetStats (runOps cfg ops)).hitRate ≤ 1 ∧
    ((ecmGetStats (runOps cfg ops)).requests = 0 →
      (ecmGetStats (runOps cfg ops)).hitRate = 0) := by
  have hinv := (good_runOps cfg ops).2.2.2
  have hview : (ecmGetStats (runOps cfg ops)).hitRate =
      if 0 < (runOps cfg ops).totalRequests then
        ((runOps cfg ops).totalHits : Rat) / (runOps cfg ops).totalRequests
      else 0 := rfl
  have hreq : (ecmGetStats (runOps cfg ops)).requests
      = (runOps cfg ops).totalRequests := rfl
  by_cases h : 0 < (runOps cfg ops).totalRequests
  · rw [hview, if_pos h, hreq]
    have hle : (runOps cfg ops).totalHits ≤ (runOps cfg ops).totalRequests := by
      omega
    refine ⟨div_nonneg (Nat.cast_nonneg _) (Nat.cast_nonneg _), ?_, ?_⟩
    · rw [div_le_one (by exact_mod_cast h)]
      exact_mod_cast hle
    · intro h0
      omega
  · rw [hview, if_neg h, hreq]
    exact ⟨le_refl 0, by norm_num, fun _ => rfl⟩

/-- C8 witness: the theorem at a concrete configuration and trace. -/
theorem C8_hitRate_bounds_witness :
    0 ≤ (ecmGetStats (runOps cfgW ([] : List (CacheOp Nat Nat)))).hitRate ∧
    (ecmGetStats (runOps cfgW ([] : List (CacheOp Nat Nat)))).hitRate ≤ 1 ∧
    ((ecmGetStats (runOps cfgW ([] : List (CacheOp Nat Nat)))).requests = 0 →
      (ecmGetStats (runOps cfgW ([] : List (CacheOp Nat Nat)))).hitRate = 0) :=
  C8_hitRate_bounds cfgW []

/-- C9: destroy cancels the cleanup-sweep timer, empties the in-memory map
and releases the redis client reference (whose own destroy cancels any
pending reconnect timer, releases the connection handle and marks the client
disconnected), and destroy is idempotent: a second call is a no-op. -/
theorem C9_destroy_idempotent (s : EnhancedCacheState κ α) :
    (ecmDestroy s).cleanupTimer = false ∧
    (ecmDestroy s).memoryCache = [] ∧
    (ecmDestroy s).redisCache = none ∧
    (∀ r, s.redisCache = some r →
      (rcmDestroy r).reconnectTimer = none ∧ (rcmDestroy r).redis = false ∧
        (rcmDestroy r).isConnected = false) ∧
    ecmDestroy (ecmDestroy s) = ecmDestroy s :=
  ⟨rfl, rfl, rfl, fun _ _ => ⟨rfl, rfl, rfl⟩, rfl⟩

/-- C9 witness: the theorem at a concrete state holding a live client. -/
theorem C9_destroy_idempotent_witness :
    (ecmDestroy ecmRemoteW).cleanupTimer = false ∧
    (ecmDestroy ecmRemoteW).memoryCache = [] ∧
    (ecmDestroy ecmRemoteW).redisCache = none ∧
    (∀ r, ecmRemoteW.redisCache = some r →
      (rcmDestroy r).reconnectTimer = none ∧ (rcmDestroy r).redis = false ∧
        (rcmDestroy r).isConnected = false) ∧
    ecmDestroy (ecmDestroy ecmRemoteW) = ecmDestroy ecmRemoteW :=
  C9_destroy_idempotent ecmRemoteW

theorem remoteClearPhase_memoryCache (s : EnhancedCacheState κ α)
    (o : RemoteOpOutcome) :
    (remoteClearPhase s o).memoryCache = s.memoryCache := by
  unfold remoteClearPhase
  split <;> rfl

/-- C10: clear resets the aggregate statistics counters (requests, hits,
misses, hitRate) to zero in addition to emptying the stored entries (when
the memory cache is enabled), so no hit/miss history accumulated before the
clear is observable through getStats afterwards. -/
theorem C10_clear_resets_stats (s : EnhancedCacheState κ α)
    (o : RemoteOpOutcome) :
    (ecmClear s o).totalRequests = 0 ∧ (ecmClear s o).totalHits = 0 ∧
    (ecmClear s o).totalMisses = 0 ∧ (ecmClear s o).totalHitRate = 0 ∧
    (ecmGetStats (ecmClear s o)).requests = 0 ∧
    (ecmGetStats (ecmClear s o)).hits = 0 ∧
    (ecmGetStats (ecmClear s o)).misses = 0 ∧
    (ecmGetStats (ecmClear s o)).hitRate = 0 ∧
    (s.config.enableMemoryCache = true → (ecmClear s o).memoryCache = []) := by
  refine ⟨rfl, rfl, rfl, rfl, rfl, rfl, rfl, rfl, ?_⟩
  intro he
  simp only [ecmClear]
  rw [if_pos he]
  show (remoteClearPhase ({ s with memoryCache := [] }) o).memoryCache = []
  rw [remoteClearPhase_memoryCache]

/-- C10 witness: the theorem at a concrete state with the memory cache
enabled. -/
theorem C10_clear_resets_stats_witness :
    (ecmClear ecmRemoteW RemoteOpOutcome.ok).totalRequests = 0 ∧
    (ecmClear ecmRemoteW RemoteOpOutcome.ok).totalHits = 0 ∧
    (ecmClear ecmRemoteW RemoteOpOutcome.ok).totalMisses = 0 ∧
    (ecmClear ecmRemoteW RemoteOpOutcome.ok).totalHitRate = 0 ∧
    (ecmGetStats (ecmClear ecmRemoteW RemoteOpOutcome.ok)).requests = 0 ∧
    (ecmGetStats (ecmClear ecmRemoteW RemoteOpOutcome.ok)).hits = 0 ∧
    (ecmGetStats (ecmClear ecmRemoteW RemoteOpOutcome.ok)).misses = 0 ∧
    (ecmGetStats (ecmClear ecmRemoteW RemoteOpOutcome.ok)).hitRate = 0 ∧
    (ecmRemoteW.config.enableMemoryCache = true →
      (ecmClear ecmRemoteW RemoteOpOutcome.ok).memoryCache = []) :=
  C10_clear_resets_stats ecmRemoteW RemoteOpOutcome.ok

/-! ### Expiry behavior of get (claims C3 and C5) -/

/-- A one-entry facade state: the key 1 was set to 42 with a ttl of 1 second
at time 0 (and a second state with ttl 5, for the C3 scenario). -/
def sTtl1W : EnhancedCacheState Nat Nat :=
  ecmSet (ecmNew cfgW) 1 42 (some 1) 0 RemoteOpOutcome.ok 0

/-- The C3 scenario state: set(1, 42, ttl 5 seconds) at time 0. -/
def sTtl5W : EnhancedCacheState Nat Nat :=
  ecmSet (ecmNew cfgW) 1 42 (some 5) 0 RemoteOpOutcome.ok 0

/-- C5 counterexample: in the state where key 1 holds an entry that expired
(set with ttl 1 second at time 0, read at time 2000 ms), get does return
null, but contrary to the claim it does not remove the entry from the memory
tier's map: the stored entry is still physically present afterwards. -/
theorem C5_counterexample :
    (ecmGet sTtl1W 1 2000 RemoteGetOutcome.missing 0).2 = none ∧
    mapFind (ecmGet sTtl1W 1 2000 RemoteGetOutcome.missing 0).1.memoryCache 1 =
      some { data := 42, timestamp := 0, ttl := 1, accessCount := 0,
             lastAccessed := 0 } := by
  decide

/-- C5 amended: when the stored memory-tier entry for a key is expired at the
time of a get, the get treats it as absent (returns null, with the remote
tier inactive) but does not remove it: the memory map is unchanged by the
get.  Removal happens only through the background sweep, an overwrite, a
delete or a clear. -/
theorem C5_expired_get_leaves_entry (s : EnhancedCacheState κ α) (k : κ)
    (now rt : Nat) (o : RemoteGetOutcome α) (item : CacheItem α)
    (he : s.config.enableMemoryCache = true)
    (hf : mapFind s.memoryCache k = some item)
    (hex : isExpired item now = true)
    (hr : s.redisCache = none) :
    (ecmGet s k now o rt).2 = none ∧
    (ecmGet s k now o rt).1.memoryCache = s.memoryCache := by
  have hml : memoryLookup { s with totalRequests := s.totalRequests + 1 } k now
      = none := memoryLookup_expired hf hex
  have hget : ecmGet s k now o rt = remoteGetPhase
      { s with totalRequests := s.totalRequests + 1 } k now o rt := by
    simp only [ecmGet]
    rw [hml]
  rw [hget, remoteGetPhase_of_none (show ({ s with totalRequests :=
    s.totalRequests + 1 } : EnhancedCacheState κ α).redisCache = none from hr)]
  exact ⟨rfl, rfl⟩

/-- C5 amended witness: the amended theorem at the concrete expired state. -/
theorem C5_expired_get_leaves_entry_witness :
    (ecmGet sTtl1W 1 2000 RemoteGetOutcome.missing 0).2 = none ∧
    (ecmGet sTtl1W 1 2000 RemoteGetOutcome.missing 0).1.memoryCache =
      sTtl1W.memoryCache :=
  C5_expired_get_leaves_entry sTtl1W 1 2000 0 RemoteGetOutcome.missing
    { data := 42, timestamp := 0, ttl := 1, accessCount := 0, lastAccessed := 0 }
    (by decide) (by decide) (by decide) (by decide)

theorem ecmSet_of_none {s : EnhancedCacheState κ α} {k : κ} {v : α}
    {ttl? : Option Nat} {now : Nat} {o : RemoteOpOutcome} {rt : Nat}
    (he : s.config.enableMemoryCache = true) (hr : s.redisCache = none) :
    ecmSet s k v ttl? now o rt = checkMemoryLimit
      { s with memoryCache :=
          mapSet s.memoryCache k (newItem v now (ttl?.getD s.config.defaultTtl)) } := by
  simp only [ecmSet]
  rw [if_pos he]
  set item : CacheItem α :=
    { data := v, timestamp := now, ttl := ttl?.getD s.config.defaultTtl,
      accessCount := 0, lastAccessed := now } with hitem
  set s2 : EnhancedCacheState κ α :=
    { s with memoryCache := mapSet s.memoryCache k item } with hs2
  rw [remoteSetPhase_of_none (show s2.redisCache = none from hr)]
  rfl

theorem checkMemoryLimit_mc (s : EnhancedCacheState κ α) :
    (checkMemoryLimit s).memoryCache = s.memoryCache ∨
    (checkMemoryLimit s).memoryCache = evictOldest s.memoryCache := by
  unfold checkMemoryLimit
  split
  · exact Or.inr rfl
  · exact Or.inl rfl

theorem mapFind_none_sweepExpired {m : List (κ × CacheItem α)} {k : κ}
    {now : Nat} (h : mapFind m k = none) :
    mapFind (sweepExpired m now) k = none := by
  rw [mapFind_eq_none_iff] at h ⊢
  intro hmem
  exact h (((sweepExpired_sublist m now).map Prod.fst).subset hmem)

theorem mapFind_sweepExpired_none {m : List (κ × CacheItem α)} {k : κ}
    {item : CacheItem α} {now : Nat} (hnd : keysNodup m)
    (hf : mapFind m k = some item) (hex : isExpired item now = true) :
    mapFind (sweepExpired m now) k = none := by
  induction m with
  | nil => simp [mapFind] at hf
  | cons q rest ih =>
      obtain ⟨k₁, it₁⟩ := q
      obtain ⟨hhead, hnd'⟩ := keysNodup_cons hnd
      by_cases hk : k₁ = k
      · rw [mapFind, if_pos hk] at hf
        have hit : it₁ = item := Option.some_inj.mp hf
        have hrest : mapFind rest k = none := by
          rw [mapFind_eq_none_iff]
          intro hmem
          exact hhead (by rw [show (k₁, it₁).1 = k₁ from rfl, hk]; exact hmem)
        rw [show sweepExpired ((k₁, it₁) :: rest) now
            = if isExpired it₁ now then sweepExpired rest now
              else (k₁, it₁) :: sweepExpired rest now from rfl]
        rw [hit, hex]
        simp only [if_true]
        exact mapFind_none_sweepExpired hrest
      · rw [mapFind, if_neg hk] at hf
        rw [show sweepExpired ((k₁, it₁) :: rest) now
            = if isExpired it₁ now then sweepExpired rest now
              else (k₁, it₁) :: sweepExpired rest now from rfl]
        by_cases hx : isExpired it₁ now
        · rw [if_pos hx]
          exact ih hnd' hf
        · rw [if_neg hx, mapFind, if_neg hk]
          exact ih hnd' hf

/-- C3 counterexample: set(1, 42, ttl 5) at time 0.  At simulated time 5000
ms the elapsed time equals ttl seconds (so the claim's premise, elapsed at
least ttl, holds), yet get returns the value 42, not null, because isExpired
uses a strict comparison.  And at time 6000 ms (elapsed strictly greater
than ttl) get does return null, but the entry still appears in the internal
counts: getStats reports a memory-tier size of 1, not 0. -/
theorem C3_counterexample :
    (0 : Nat) < 5 ∧ 5 * 1000 ≤ 5000 - 0 ∧
    (ecmGet sTtl5W 1 5000 RemoteGetOutcome.missing 0).2 = some 42 ∧
    (ecmGet sTtl5W 1 6000 RemoteGetOutcome.missing 0).2 = none ∧
    (ecmGetStats (ecmGet sTtl5W 1 6000 RemoteGetOutcome.missing 0).1).memSize
      = 1 := by
  decide

/-- C3 amended: with the memory tier enabled and no remote client, after
set(k, v, ttl) at time now0, once the elapsed simulated time is STRICTLY
greater than ttl seconds, get(k) returns null; the entry itself, however,
survives in the memory map (and in the size reported by getStats) until the
background cleanup sweep runs: after cleanupExpiredItems at such a time the
key is absent from the map. -/
theorem C3_expiry_after_strict_ttl (s : EnhancedCacheState κ α) (k : κ)
    (v : α) (ttl now₀ now₁ rt rt' : Nat) (so : RemoteOpOutcome)
    (o : RemoteGetOutcome α)
    (he : s.config.enableMemoryCache = true) (hr : s.redisCache = none)
    (hnd : keysNodup s.memoryCache) (httl : 0 < ttl)
    (helapsed : now₀ + ttl * 1000 < now₁) :
    (ecmGet (ecmSet s k v (some ttl) now₀ so rt) k now₁ o rt').2 = none ∧
    mapFind (ecmCleanup (ecmSet s k v (some ttl) now₀ so rt) now₁).memoryCache k
      = none := by
  set item₀ : CacheItem α :=
    newItem v now₀ ((some ttl).getD s.config.defaultTtl) with hitem₀
  set s2 : EnhancedCacheState κ α :=
    { s with memoryCache := mapSet s.memoryCache k item₀ } with hs2
  have hset : ecmSet s k v (some ttl) now₀ so rt = checkMemoryLimit s2 :=
    ecmSet_of_none he hr
  have hnd' : keysNodup s2.memoryCache := keysNodup_mapSet _ _ hnd
  have hex : isExpired item₀ now₁ = true := by
    simp only [hitem₀, newItem, isExpired, Option.getD]
    simp only [decide_eq_true_eq]
    omega
  have hsr : (ecmSet s k v (some ttl) now₀ so rt).redisCache = none := by
    rw [hset, (checkMemoryLimit_proj _).1]
    exact hr
  have hfind : mapFind (ecmSet s k v (some ttl) now₀ so rt).memoryCache k = none
      ∨ mapFind (ecmSet s k v (some ttl) now₀ so rt).memoryCache k
        = some item₀ := by
    rw [hset]
    rcases checkMemoryLimit_mc s2 with hmc | hmc
    · rw [hmc]
      exact Or.inr (mapFind_mapSet_self _ _ _)
    · rw [hmc]
      rcases mapFind_evictOldest_cases s2.memoryCache k with hc | hc
      · exact Or.inl hc
      · rw [hc]
        exact Or.inr (mapFind_mapSet_self _ _ _)
  constructor
  · set s' : EnhancedCacheState κ α := ecmSet s k v (some ttl) now₀ so rt
      with hs'
    have hml : memoryLookup { s' with totalRequests := s'.totalRequests + 1 }
        k now₁ = none := by
      rcases hfind with hc | hc
      · exact memoryLookup_absent hc
      · exact memoryLookup_expired hc hex
    have hget : ecmGet s' k now₁ o rt' = remoteGetPhase
        { s' with totalRequests := s'.totalRequests + 1 } k now₁ o rt' := by
      simp only [ecmGet]
      rw [hml]
    rw [hget, remoteGetPhase_of_none (show ({ s' with totalRequests :=
      s'.totalRequests + 1 } : EnhancedCacheState κ α).redisCache = none
      from hsr)]
  · show mapFind (sweepExpired (ecmSet s k v (some ttl) now₀ so rt).memoryCache
      now₁) k = none
    have hndpost : keysNodup (ecmSet s k v (some ttl) now₀ so rt).memoryCache := by
      rw [hset]
      rcases checkMemoryLimit_mc s2 with hmc | hmc
      · rw [hmc]; exact hnd'
      · rw [hmc]; exact keysNodup_evictOldest hnd'
    rcases hfind with hc | hc
    · exact mapFind_none_sweepExpired hc
    · exact mapFind_sweepExpired_none hndpost hc hex

/-- C3 amended witness: the amended theorem at the concrete C3 scenario. -/
theorem C3_expiry_after_strict_ttl_witness :
    (ecmGet (ecmSet (ecmNew cfgW) 1 42 (some 5) 0 RemoteOpOutcome.ok 0)
        1 6000 RemoteGetOutcome.missing 0).2 = none ∧
    mapFind (ecmCleanup (ecmSet (ecmNew cfgW) 1 42 (some 5) 0
        RemoteOpOutcome.ok 0) 6000).memoryCache 1 = none :=
  C3_expiry_after_strict_ttl (ecmNew cfgW) 1 42 5 0 6000 0 0
    RemoteOpOutcome.ok RemoteGetOutcome.missing
    (by decide) (by decide) (by decide) (by decide) (by decide)

/-! ### Set-then-get round trip (claim C4) -/

/-- A full memory tier: 1001 entries with keys 0..1000, all sharing
lastAccessed 0 and a very long ttl. -/
def bigMapW : List (Nat × CacheItem Nat) :=
  (List.range 1001).map (fun i => (i, ⟨0, 0, 1000000, 0, 0⟩))

/-- A facade state holding the full memory tier. -/
def bigStateW : EnhancedCacheState Nat Nat :=
  { (ecmNew cfgW : EnhancedCacheState Nat Nat) with memoryCache := bigMapW }

set_option maxRecDepth 100000 in
/-- C4 counterexample: with the memory tier enabled and ttl 5 greater than 0,
overwriting key 0 of a 1001-entry map whose entries all share lastAccessed 0
(the overwrite keeps the key's original first position, and its new
lastAccessed 0 ties with every other entry) triggers the eviction pass; the
stable sort leaves the tied entries in map order, so the just-written key 0
is among the oldest 10 percent and is evicted, and the immediate get returns
null instead of the value 42. -/
theorem C4_counterexample :
    bigStateW.config.enableMemoryCache = true ∧ (0 : Nat) < 5 ∧
    (ecmGet (ecmSet bigStateW 0 42 (some 5) 0 RemoteOpOutcome.ok 0)
        0 0 RemoteGetOutcome.missing 0).2 = none := by
  decide

/-- C4 amended: with the memory tier enabled, unique keys, and every stored
entry's lastAccessedAt strictly below the current time (no timestamp tie
with the write, which is the one situation the counterexample exploits),
set(k, v, ttl greater than 0) followed immediately by get(k) returns v for
every prior cache state, including states where the set triggers a
capacity-eviction pass: the just-written entry then carries the strictly
largest lastAccessedAt, so the pass cannot select it. -/
theorem C4_set_get_roundtrip (s : EnhancedCacheState κ α) (k : κ) (v : α)
    (ttl now rt rt' : Nat) (so : RemoteOpOutcome) (o : RemoteGetOutcome α)
    (he : s.config.enableMemoryCache = true) (hr : s.redisCache = none)
    (hnd : keysNodup s.memoryCache) (httl : 0 < ttl)
    (hfresh : ∀ p ∈ s.memoryCache, p.2.lastAccessed < now) :
    (ecmGet (ecmSet s k v (some ttl) now so rt) k now o rt').2 = some v := by
  set item₀ : CacheItem α :=
    newItem v now ((some ttl).getD s.config.defaultTtl) with hitem₀
  set s2 : EnhancedCacheState κ α :=
    { s with memoryCache := mapSet s.memoryCache k item₀ } with hs2
  have hset : ecmSet s k v (some ttl) now so rt = checkMemoryLimit s2 :=
    ecmSet_of_none he hr
  have hnd' : keysNodup s2.memoryCache := keysNodup_mapSet _ _ hnd
  have hfind₀ : mapFind s2.memoryCache k = some item₀ :=
    mapFind_mapSet_self _ _ _
  have hmax : ∀ q ∈ s2.memoryCache, ¬ q.1 = k →
      laKey q < item₀.lastAccessed := by
    intro q hq hqk
    rcases mem_mapSet hq with hq' | hq'
    · exact absurd (by rw [hq']) hqk
    · have := hfresh q hq'
      simpa [hitem₀, newItem, laKey] using this
  have hfind : mapFind (ecmSet s k v (some ttl) now so rt).memoryCache k
      = some item₀ := by
    rw [hset]
    rcases checkMemoryLimit_mc s2 with hmc | hmc
    · rw [hmc]
      exact hfind₀
    · rw [hmc]
      exact mapFind_evictOldest_max hnd' hfind₀ hmax
  have hnotexp : isExpired item₀ now = false := by
    simp [hitem₀, newItem, isExpired]
  set s' : EnhancedCacheState κ α := ecmSet s k v (some ttl) now so rt with hs'
  have he' : s'.config.enableMemoryCache = true := by
    rw [hs', config_ecmSet]
    exact he
  have hml : memoryLookup { s' with totalRequests := s'.totalRequests + 1 }
      k now = some item₀ := memoryLookup_fresh he' hfind hnotexp
  simp only [ecmGet]
  rw [hml]
  show some item₀.data = some v
  simp [hitem₀, newItem]

/-- C4 amended witness: the amended theorem at a concrete one-entry state
whose entry was last accessed strictly before the write time. -/
theorem C4_set_get_roundtrip_witness :
    (ecmGet (ecmSet sTtl5W 9 7 (some 3) 50 RemoteOpOutcome.ok 0)
        9 50 RemoteGetOutcome.missing 0).2 = some 7 :=
  C4_set_get_roundtrip sTtl5W 9 7 3 50 0 0 RemoteOpOutcome.ok
    RemoteGetOutcome.missing (by decide) (by decide) (by decide) (by decide)
    (by decide)

/-! ### The capacity-eviction pass (claim C6) -/

/-- C6: in every reachable facade state, when a set makes the memory tier's
entry count exceed the 1000-entry limit, the triggered eviction pass brings
the count back to at most the limit (it removes exactly
length / 10 entries, the fixed 10 percent fraction, which lies in the
claimed 10 to 20 percent band, rather than evicting down to exactly the
limit), and the evicted entries are those with smallest lastAccessedAt:
every entry removed by the pass has lastAccessedAt at most that of every
retained entry. -/
theorem C6_eviction_pass (cfg : EnhancedCacheConfig) (ops : List (CacheOp κ α))
    (k : κ) (v : α) (ttl? : Option Nat) (now rt : Nat) (so : RemoteOpOutcome)
    (m' : List (κ × CacheItem α))
    (hmem : cfg.enableMemoryCache = true)
    (hm' : m' = mapSet (runOps cfg ops).memoryCache k
      (newItem v now (ttl?.getD cfg.defaultTtl)))
    (hover : 1000 < m'.length) :
    (ecmSet (runOps cfg ops) k v ttl? now so rt).memoryCache.length ≤ 1000 ∧
    (ecmSet (runOps cfg ops) k v ttl? now so rt).memoryCache.length
      + m'.length / 10 = m'.length ∧
    (∀ p ∈ m', p ∉ (ecmSet (runOps cfg ops) k v ttl? now so rt).memoryCache →
      ∀ q ∈ (ecmSet (runOps cfg ops) k v ttl? now so rt).memoryCache,
        p.2.lastAccessed ≤ q.2.lastAccessed) := by
  obtain ⟨hr, hlen, hnd, -⟩ := good_runOps (κ := κ) (α := α) cfg ops
  have hcfg := config_runOps (κ := κ) (α := α) cfg ops
  have he : (runOps cfg ops).config.enableMemoryCache = true := by
    rw [hcfg]
    exact hmem
  have hm'2 : m' = mapSet (runOps cfg ops).memoryCache k
      (newItem v now (ttl?.getD (runOps cfg ops).config.defaultTtl)) := by
    rw [hm', hcfg]
  have hset : ecmSet (runOps cfg ops) k v ttl? now so rt =
      checkMemoryLimit { runOps cfg ops with memoryCache := m' } := by
    rw [ecmSet_of_none he hr, ← hm'2]
  have hnd' : keysNodup m' := by
    rw [hm']
    exact keysNodup_mapSet _ _ hnd
  have h1001 : m'.length = 1001 := by
    have hle : m'.length ≤ (runOps cfg ops).memoryCache.length + 1 := by
      rw [hm', length_mapSet]
      split <;> omega
    omega
  have hdiv : m'.length / 10 = 100 := by rw [h1001]
  have hmc : (checkMemoryLimit
      { runOps cfg ops with memoryCache := m' }).memoryCache
        = evictOldest m' := by
    unfold checkMemoryLimit
    rw [if_pos (show (1000 : Nat) < ({ runOps cfg ops with memoryCache := m' }
      : EnhancedCacheState κ α).memoryCache.length from hover)]
  have hev := evictOldest_length (m := m') hnd'
  refine ⟨?_, ?_, ?_⟩
  · rw [hset, hmc]
    omega
  · rw [hset, hmc]
    exact hev
  · rw [hset, hmc]
    intro p hp hpnot q hq
    rw [show evictOldest m' = (evictKeys m').foldl mapDelete m' from rfl]
      at hpnot hq
    obtain ⟨hqm', hqks⟩ := mem_foldlDelete.mp hq
    have hpks : p.1 ∈ evictKeys m' := by
      by_contra hnpks
      exact hpnot (mem_foldlDelete.mpr ⟨hp, hnpks⟩)
    obtain ⟨p', hp'take, hp'key⟩ :
        ∃ p' ∈ (sortLA m').take ((sortLA m').length / 10), p'.1 = p.1 := by
      unfold evictKeys at hpks
      rcases List.mem_map.mp hpks with ⟨p', hp', hk⟩
      exact ⟨p', hp', hk⟩
    have hp'm : p' ∈ m' :=
      (sortLA_perm m').mem_iff.mp ((List.take_sublist _ _).mem hp'take)
    have hpp' : p' = p := eq_of_keysNodup_mem hnd' hp'm hp hp'key
    have hqs : q ∈ sortLA m' := (sortLA_perm m').mem_iff.mpr hqm'
    have hqsplit : q ∈ (sortLA m').take ((sortLA m').length / 10) ++
        (sortLA m').drop ((sortLA m').length / 10) := by
      rw [List.take_append_drop]
      exact hqs
    have hqd : q ∈ (sortLA m').drop ((sortLA m').length / 10) := by
      rcases List.mem_append.mp hqsplit with hqt | hqd
      · exfalso
        apply hqks
        unfold evictKeys
        exact List.mem_map_of_mem Prod.fst hqt
      · exact hqd
    have hle := take_drop_laKey_le (m := m') hp'take hqd
    rw [hpp'] at hle
    exact hle

/-- The operation that stores the value 0 under key i at time 0. -/
def setOpW (i : Nat) : CacheOp Nat Nat :=
  CacheOp.set i 0 none 0 RemoteOpOutcome.ok 0

/-- The operation trace that fills the memory tier: 1000 sets of distinct
keys at time 0. -/
def evOpsW : List (CacheOp Nat Nat) :=
  (List.range 1000).map setOpW

/-- The over-limit map of the C6 witness: the full tier plus a fresh key. -/
def evMapW : List (Nat × CacheItem Nat) :=
  mapSet (runOps cfgW evOpsW).memoryCache 1000
    (newItem 0 0 ((none : Option Nat).getD cfgW.defaultTtl))

theorem evopsW_keys : ∀ n, n ≤ 1000 →
    mapKeys (runOps cfgW ((List.range n).map setOpW)).memoryCache
      = List.range n := by
  intro n
  induction n with
  | zero =>
      intro _
      rfl
  | succ n ih =>
      intro hn
      have hih := ih (by omega)
      obtain ⟨hr, hlen, hnd, -⟩ :=
        good_runOps (κ := Nat) (α := Nat) cfgW ((List.range n).map setOpW)
      have he : (runOps cfgW
          ((List.range n).map setOpW)).config.enableMemoryCache = true := by
        rw [config_runOps]
        rfl
      have hstep : runOps cfgW ((List.range (n + 1)).map setOpW)
          = ecmSet (runOps cfgW ((List.range n).map setOpW)) n 0 none 0
              RemoteOpOutcome.ok 0 := by
        rw [List.range_succ, List.map_append]
        unfold runOps
        rw [List.foldl_append]
        rfl
      rw [hstep, ecmSet_of_none he hr]
      set m2 : List (Nat × CacheItem Nat) :=
        mapSet (runOps cfgW ((List.range n).map setOpW)).memoryCache n
          (newItem 0 0 ((none : Option Nat).getD
            (runOps cfgW ((List.range n).map setOpW)).config.defaultTtl))
        with hm2
      have hkeys2 : mapKeys m2 = List.range n ++ [n] := by
        rw [hm2, mapKeys_mapSet, hih]
        rw [if_neg (by simp [List.mem_range])]
      have hlen2 : ¬ 1000 < m2.length := by
        have h1 : m2.length = (mapKeys m2).length := by simp [mapKeys]
        rw [h1, hkeys2]
        simp only [List.length_append, List.length_range, List.length_singleton]
        omega
      unfold checkMemoryLimit
      rw [if_neg (show ¬ 1000 <
        ({ runOps cfgW ((List.range n).map setOpW) with memoryCache := m2 }
          : EnhancedCacheState Nat Nat).memoryCache.length from hlen2)]
      show mapKeys m2 = List.range (n + 1)
      rw [hkeys2, List.range_succ]

theorem evMapW_over : 1000 < evMapW.length := by
  have hkeys := evopsW_keys 1000 (le_refl 1000)
  have hnotmem : (1000 : Nat) ∉ mapKeys (runOps cfgW evOpsW).memoryCache := by
    rw [show evOpsW = (List.range 1000).map setOpW from rfl, hkeys]
    simp [List.mem_range]
  have h2 : evMapW.length = (runOps cfgW evOpsW).memoryCache.length + 1 := by
    rw [show evMapW = mapSet (runOps cfgW evOpsW).memoryCache 1000
        (newItem 0 0 ((none : Option Nat).getD cfgW.defaultTtl)) from rfl,
      length_mapSet, if_neg hnotmem]
  have h3 : (runOps cfgW evOpsW).memoryCache.length = 1000 := by
    have h1 : (runOps cfgW evOpsW).memoryCache.length
        = (mapKeys (runOps cfgW evOpsW).memoryCache).length := by
      simp [mapKeys]
    rw [h1, show evOpsW = (List.range 1000).map setOpW from rfl, hkeys]
    simp
  omega

/-- C6 witness: the theorem at the concrete 1000-set trace followed by the
set of a fresh 1001st key. -/
theorem C6_eviction_pass_witness :
    (ecmSet (runOps cfgW evOpsW) 1000 0 none 0 RemoteOpOutcome.ok
      0).memoryCache.length ≤ 1000 ∧
    (ecmSet (runOps cfgW evOpsW) 1000 0 none 0 RemoteOpOutcome.ok
      0).memoryCache.length + evMapW.length / 10 = evMapW.length ∧
    (∀ p ∈ evMapW, p ∉ (ecmSet (runOps cfgW evOpsW) 1000 0 none 0
        RemoteOpOutcome.ok 0).memoryCache →
      ∀ q ∈ (ecmSet (runOps cfgW evOpsW) 1000 0 none 0
        RemoteOpOutcome.ok 0).memoryCache,
        p.2.lastAccessed ≤ q.2.lastAccessed) :=
  C6_eviction_pass cfgW evOpsW 1000 0 none 0 0 RemoteOpOutcome.ok evMapW
    (by decide) rfl evMapW_over

end OpenCanvasCache

